import Mathlib

/-!
Verification development for the multimaterial G-code post-processor
(`postprocess_lib.py`).  The Python source is shallowly embedded: lines are
`List Char`, Python numeric values (int-or-float results of `int(s)` /
`float(s)`) are the inductive `PyVal`, Python dicts keyed by numbers are
association lists looked up with Python numeric equality, and every operation
that can raise (KeyError, ValueError) returns `Option`.

Scope notes on fidelity:
* Python floats are modelled as exact decimals `m / 10 ^ (e + 1)`; the source
  only ever parses decimal literals, reserializes them, and compares them, so
  no IEEE rounding behaviour is observable in the modelled fragment.  The
  serializer keeps the parsed number of fraction digits instead of the
  shortest form, which is semantically equal under Python numeric equality.
* `float(s)` / `int(s)` are modelled for decimal forms (optional sign, digits,
  optional fraction part, surrounding whitespace); scientific notation and
  inf/nan never occur in the modelled G-code dialect.
-/

/- Definitions of the numeric codec. -/

/-- A Python numeric value as produced by `int(s)` or `float(s)`:
`vint n` is an int, `vfloat m e` is the float with exact value
`m / 10 ^ (e + 1)` (every float in the program is parsed from a decimal
literal, whose fraction part is non-empty after normalization). -/
inductive PyVal where
  | vint : Int → PyVal
  | vfloat : Int → Nat → PyVal
deriving DecidableEq, Repr

/-- Denominator `10 ^ (e + 1)` of the float representation. -/
def pyDenom (e : Nat) : Int := Int.ofNat (10 ^ (e + 1))

/-- Numerator/denominator pair of a `PyVal` (denominator positive). -/
def pyFrac : PyVal → Int × Int
  | PyVal.vint n => (n, 1)
  | PyVal.vfloat m e => (m, pyDenom e)

/-- Python numeric equality `==` across int and float. -/
def pyEqB (a b : PyVal) : Bool :=
  (pyFrac a).1 * (pyFrac b).2 == (pyFrac b).1 * (pyFrac a).2

/-- Python numeric strict order `<` across int and float. -/
def pyLtB (a b : PyVal) : Bool :=
  decide ((pyFrac a).1 * (pyFrac b).2 < (pyFrac b).1 * (pyFrac a).2)

/-- Truncation toward zero, the behaviour of Python `%d` formatting applied
to an int or float. -/
def pyTruncToInt : PyVal → Int
  | PyVal.vint n => n
  | PyVal.vfloat m e =>
      if m < 0 then - Int.ofNat (m.natAbs / (10 ^ (e + 1)))
      else Int.ofNat (m.natAbs / (10 ^ (e + 1)))

/-- Multiplication of a Python number by an int literal
(used for `feed_override * 15`). -/
def pyMulNat (v : PyVal) (k : Nat) : PyVal :=
  match v with
  | PyVal.vint n => PyVal.vint (n * Int.ofNat k)
  | PyVal.vfloat m e => PyVal.vfloat (m * Int.ofNat k) e

/-- The digit character for `n % 10`-style values below ten. -/
def digitChar : Nat → Char
  | 0 => '0' | 1 => '1' | 2 => '2' | 3 => '3' | 4 => '4'
  | 5 => '5' | 6 => '6' | 7 => '7' | 8 => '8' | _ => '9'

/-- Numeric value of a digit character. -/
def digitVal (c : Char) : Nat := c.toNat - 48

/-- Digit production loop with an explicit recursion bound (kept structural
so that evaluation reduces in the kernel); the bound is always sufficient at
the call site below. -/
def natToDigitsF : Nat → Nat → List Char
  | 0, _ => []
  | fuel + 1, n =>
      if n < 10 then [digitChar n]
      else natToDigitsF fuel (n / 10) ++ [digitChar (n % 10)]

/-- Decimal digits of a natural number, most significant first
(the digits of Python `str(n)` for `n : Nat`). -/
def natToDigits (n : Nat) : List Char := natToDigitsF (n + 1) n

theorem natToDigitsF_congr (f1 : Nat) : ∀ (f2 n : Nat), n < f1 → n < f2 →
    natToDigitsF f1 n = natToDigitsF f2 n := by
  induction f1 with
  | zero => omega
  | succ f ih =>
    intro f2 n h1 h2
    cases f2 with
    | zero => omega
    | succ g =>
      show (if n < 10 then [digitChar n]
            else natToDigitsF f (n / 10) ++ [digitChar (n % 10)]) =
        (if n < 10 then [digitChar n]
         else natToDigitsF g (n / 10) ++ [digitChar (n % 10)])
      by_cases hn : n < 10
      · rw [if_pos hn, if_pos hn]
      · rw [if_neg hn, if_neg hn]
        have hdiv : n / 10 < n := Nat.div_lt_self (by omega) (by omega)
        congr 1
        exact ih g (n / 10) (by omega) (by omega)

theorem natToDigits_eq (n : Nat) : natToDigits n =
    if n < 10 then [digitChar n]
    else natToDigits (n / 10) ++ [digitChar (n % 10)] := by
  show (if n < 10 then [digitChar n]
        else natToDigitsF n (n / 10) ++ [digitChar (n % 10)]) = _
  by_cases hn : n < 10
  · rw [if_pos hn, if_pos hn]
  · rw [if_neg hn, if_neg hn]
    have hdiv : n / 10 < n := Nat.div_lt_self (by omega) (by omega)
    rw [natToDigitsF_congr n (n / 10 + 1) (n / 10) (by omega) (by omega)]
    rfl

/-- Value of a digit string (the accumulator loop of decimal parsing). -/
def digitsToNat (l : List Char) : Nat :=
  l.foldl (fun a c => a * 10 + digitVal c) 0

/-- Whitespace characters stripped by Python `str.strip` / numeric parsing
(the forms occurring in G-code files). -/
def isWsChar (c : Char) : Bool :=
  c = ' ' || c = '\t' || c = '\n' || c = '\r'

/-- Python `str.strip`. -/
def pyStrip (l : List Char) : List Char :=
  ((l.dropWhile isWsChar).reverse.dropWhile isWsChar).reverse

/-- Python `int(s)` on a token: optional sign, non-empty digits,
surrounding whitespace allowed; `none` models `ValueError`. -/
def pyIntChars (l : List Char) : Option Int :=
  let t := pyStrip l
  let body := if t.head? = some '-' ∨ t.head? = some '+' then t.tail else t
  if body ≠ [] ∧ body.all Char.isDigit then
    some (if t.head? = some '-' then - Int.ofNat (digitsToNat body)
          else Int.ofNat (digitsToNat body))
  else none

/-- Build a signed float representation from digit strings: integer part
`ip`, fraction part `fp` (decimal forms of Python `float(s)`). -/
def mkFloatRep (neg : Bool) (ip fp : List Char) : Int × Nat :=
  let fp' := if fp = [] then ['0'] else fp
  let n := digitsToNat (ip ++ fp')
  ((if neg then - Int.ofNat n else Int.ofNat n), fp'.length - 1)

/-- Python `float(s)` on a token, for decimal forms: optional sign, digits
with optional fraction (at least one digit overall), surrounding whitespace
allowed; `none` models `ValueError`. -/
def pyFloatChars (l : List Char) : Option (Int × Nat) :=
  let t := pyStrip l
  let neg := decide (t.head? = some '-')
  let body := if t.head? = some '-' ∨ t.head? = some '+' then t.tail else t
  let ip := body.takeWhile Char.isDigit
  let rest := body.dropWhile Char.isDigit
  if rest = [] then (if ip = [] then none else some (mkFloatRep neg ip []))
  else if rest.head? = some '.' then
    (let fp := rest.tail.takeWhile Char.isDigit
     if rest.tail.dropWhile Char.isDigit ≠ [] then none
     else if ip = [] ∧ fp = [] then none
     else some (mkFloatRep neg ip fp))
  else none

/-- Decode a parameter token body: `int(s)`, falling back to `float(s)` on
`ValueError`, as in `parse_gcode`; `none` is the fatal format error. -/
def parseVal (l : List Char) : Option PyVal :=
  match pyIntChars l with
  | some n => some (PyVal.vint n)
  | none =>
      match pyFloatChars l with
      | some (m, e) => some (PyVal.vfloat m e)
      | none => none

/-- Characters of Python `str(n)` for an int. -/
def intChars (n : Int) : List Char :=
  if n < 0 then '-' :: natToDigits n.natAbs else natToDigits n.natAbs

/-- Characters of the serialized float `m / 10 ^ (e + 1)`: the digit string
of `m` with a decimal point `e + 1` places from the right, zero-padded. -/
def floatChars (m : Int) (e : Nat) : List Char :=
  let ds := natToDigits m.natAbs
  let padded := List.replicate ((e + 2) - ds.length) '0' ++ ds
  let ip := padded.take (padded.length - (e + 1))
  let fp := padded.drop (padded.length - (e + 1))
  (if m < 0 then ['-'] else []) ++ ip ++ '.' :: fp

/-- Characters of Python `"%s" % value` for a parsed numeric value. -/
def pyValChars : PyVal → List Char
  | PyVal.vint n => intChars n
  | PyVal.vfloat m e => floatChars m e

theorem digitVal_digitChar (n : Nat) (h : n < 10) : digitVal (digitChar n) = n := by
  interval_cases n <;> decide

theorem isDigit_digitChar (n : Nat) : (digitChar n).isDigit = true := by
  unfold digitChar
  split <;> decide

theorem natToDigits_all_digit (n : Nat) : (natToDigits n).all Char.isDigit = true := by
  induction n using Nat.strong_induction_on with
  | _ n ih =>
    rw [natToDigits_eq]
    split
    · simp [isDigit_digitChar]
    · rename_i h
      rw [List.all_append]
      rw [ih (n / 10) (Nat.div_lt_self (by omega) (by omega))]
      simp [isDigit_digitChar]

theorem natToDigits_ne_nil (n : Nat) : natToDigits n ≠ [] := by
  induction n using Nat.strong_induction_on with
  | _ n ih =>
    rw [natToDigits_eq]
    split
    · simp
    · simp

theorem digitsToNat_append_single (xs : List Char) (c : Char) :
    digitsToNat (xs ++ [c]) = digitsToNat xs * 10 + digitVal c := by
  simp [digitsToNat, List.foldl_append]

theorem digitsToNat_natToDigits (n : Nat) : digitsToNat (natToDigits n) = n := by
  induction n using Nat.strong_induction_on with
  | _ n ih =>
    rw [natToDigits_eq]
    split
    · rename_i h
      simp [digitsToNat, digitVal_digitChar n h]
    · rename_i h
      rw [digitsToNat_append_single, ih (n / 10) (Nat.div_lt_self (by omega) (by omega)),
        digitVal_digitChar (n % 10) (Nat.mod_lt n (by omega))]
      omega

theorem digitsToNat_replicate_zero (k : Nat) (xs : List Char) :
    digitsToNat (List.replicate k '0' ++ xs) = digitsToNat xs := by
  induction k with
  | zero => simp
  | succ k ih =>
    rw [List.replicate_succ, List.cons_append]
    show digitsToNat (('0' :: List.replicate k '0') ++ xs) = digitsToNat xs
    simp only [digitsToNat, List.foldl_cons] at ih ⊢
    simpa [digitVal] using ih

theorem isDigit_not_ws (c : Char) (h : c.isDigit = true) : isWsChar c = false := by
  unfold isWsChar
  by_contra hb
  simp only [Bool.or_eq_true, decide_eq_true_eq, Bool.not_eq_false] at hb
  rcases hb with ((h1 | h1) | h1) | h1 <;> subst h1 <;> simp [Char.isDigit] at h

theorem isDigit_ne_vals (c : Char) (h : c.isDigit = true) :
    c ≠ ' ' ∧ c ≠ ';' ∧ c ≠ '.' ∧ c ≠ '-' ∧ c ≠ '+' := by
  refine ⟨?_, ?_, ?_, ?_, ?_⟩ <;> rintro rfl <;> simp [Char.isDigit] at h

theorem takeWhile_append_stop (p : Char → Bool) (xs : List Char) (y : Char)
    (ys : List Char) (hxs : xs.all p = true) (hy : p y = false) :
    (xs ++ y :: ys).takeWhile p = xs := by
  induction xs with
  | nil => simp [List.takeWhile_cons, hy]
  | cons a t ih =>
    simp only [List.all_cons, Bool.and_eq_true] at hxs
    simp [List.takeWhile_cons, hxs.1, ih hxs.2]

theorem dropWhile_append_stop (p : Char → Bool) (xs : List Char) (y : Char)
    (ys : List Char) (hxs : xs.all p = true) (hy : p y = false) :
    (xs ++ y :: ys).dropWhile p = y :: ys := by
  induction xs with
  | nil => simp [List.dropWhile_cons, hy]
  | cons a t ih =>
    simp only [List.all_cons, Bool.and_eq_true] at hxs
    simp [List.dropWhile_cons, hxs.1, ih hxs.2]

theorem takeWhile_all (p : Char → Bool) (xs : List Char) (hxs : xs.all p = true) :
    xs.takeWhile p = xs := by
  induction xs with
  | nil => rfl
  | cons a t ih =>
    simp only [List.all_cons, Bool.and_eq_true] at hxs
    simp [List.takeWhile_cons, hxs.1, ih hxs.2]

theorem dropWhile_all (p : Char → Bool) (xs : List Char) (hxs : xs.all p = true) :
    xs.dropWhile p = [] := by
  induction xs with
  | nil => rfl
  | cons a t ih =>
    simp only [List.all_cons, Bool.and_eq_true] at hxs
    simp [List.dropWhile_cons, hxs.1, ih hxs.2]

theorem pyStrip_eq_self (l : List Char)
    (hhead : ∀ c, l.head? = some c → isWsChar c = false)
    (hlast : ∀ c, l.getLast? = some c → isWsChar c = false) :
    pyStrip l = l := by
  unfold pyStrip
  have h1 : l.dropWhile isWsChar = l := by
    cases l with
    | nil => rfl
    | cons a t => simp [List.dropWhile_cons, hhead a (by simp)]
  rw [h1]
  have h2 : l.reverse.dropWhile isWsChar = l.reverse := by
    cases hr : l.reverse with
    | nil => rfl
    | cons a t =>
      have : l.getLast? = some a := by
        rw [← List.head?_reverse, hr]
        rfl
      simp [List.dropWhile_cons, hlast a this]
  rw [h2, List.reverse_reverse]

theorem head_digit_of_all (l : List Char) (c : Char) (hall : l.all Char.isDigit = true)
    (h : l.head? = some c) : c.isDigit = true := by
  cases l with
  | nil => simp at h
  | cons a t =>
    simp only [List.head?_cons, Option.some.injEq] at h
    subst h
    simp only [List.all_cons, Bool.and_eq_true] at hall
    exact hall.1

theorem last_digit_of_all (l : List Char) (c : Char) (hall : l.all Char.isDigit = true)
    (h : l.getLast? = some c) : c.isDigit = true := by
  have hmem : c ∈ l := List.mem_of_mem_getLast? h
  rw [List.all_eq_true] at hall
  exact hall c hmem

theorem mem_pyStrip (l : List Char) (c : Char) (h : c ∈ pyStrip l) : c ∈ l := by
  unfold pyStrip at h
  rw [List.mem_reverse] at h
  have h1 := (List.dropWhile_sublist (l := (l.dropWhile isWsChar).reverse)
    (p := isWsChar)).subset h
  rw [List.mem_reverse] at h1
  exact (List.dropWhile_sublist (l := l) (p := isWsChar)).subset h1

theorem intChars_head_not_ws (n : Int) (c : Char) (h : (intChars n).head? = some c) :
    isWsChar c = false := by
  unfold intChars at h
  split at h
  · simp only [List.head?_cons, Option.some.injEq] at h
    subst h
    decide
  · exact isDigit_not_ws c (head_digit_of_all _ c (natToDigits_all_digit _) h)

theorem intChars_last_digit (n : Int) (c : Char) (h : (intChars n).getLast? = some c) :
    c.isDigit = true := by
  unfold intChars at h
  split at h
  · cases hds : natToDigits n.natAbs with
    | nil => exact absurd hds (natToDigits_ne_nil _)
    | cons a t =>
      rw [hds] at h
      rw [show ('-' :: a :: t).getLast? = (a :: t).getLast? from rfl] at h
      exact last_digit_of_all (a :: t) c (by rw [← hds]; exact natToDigits_all_digit _) h
  · exact last_digit_of_all _ c (natToDigits_all_digit _) h

theorem pyStrip_intChars (n : Int) : pyStrip (intChars n) = intChars n := by
  apply pyStrip_eq_self
  · exact intChars_head_not_ws n
  · intro c hc
    exact isDigit_not_ws c (intChars_last_digit n c hc)

theorem pyIntChars_intChars (n : Int) : pyIntChars (intChars n) = some n := by
  have hstrip := pyStrip_intChars n
  by_cases hn : n < 0
  · have hic : intChars n = '-' :: natToDigits n.natAbs := by
      unfold intChars
      rw [if_pos hn]
    rw [hic] at hstrip ⊢
    have hds := natToDigits_ne_nil n.natAbs
    have hall := natToDigits_all_digit n.natAbs
    unfold pyIntChars
    simp [hstrip, hds, hall]
    rw [digitsToNat_natToDigits]
    omega
  · have hic : intChars n = natToDigits n.natAbs := by
      unfold intChars
      rw [if_neg hn]
    obtain ⟨a, t, hds⟩ : ∃ a t, natToDigits n.natAbs = a :: t := by
      cases hds : natToDigits n.natAbs with
      | nil => exact absurd hds (natToDigits_ne_nil _)
      | cons a t => exact ⟨a, t, rfl⟩
    have hadig : a.isDigit = true := by
      apply head_digit_of_all (natToDigits n.natAbs) a (natToDigits_all_digit _)
      rw [hds]; rfl
    have hane := isDigit_ne_vals a hadig
    have hall : (a :: t).all Char.isDigit = true := by
      rw [← hds]; exact natToDigits_all_digit _
    rw [hic, hds] at hstrip ⊢
    unfold pyIntChars
    simp [hstrip, hall, hane.2.2.2.1, hane.2.2.2.2]
    have : digitsToNat (a :: t) = n.natAbs := by
      rw [← hds, digitsToNat_natToDigits]
    rw [this]
    omega

theorem floatChars_parts (m : Int) (e : Nat) :
    ∃ ip fp : List Char,
      floatChars m e = (if m < 0 then ['-'] else []) ++ ip ++ '.' :: fp ∧
      ip ≠ [] ∧ ip.all Char.isDigit = true ∧ fp.all Char.isDigit = true ∧
      fp.length = e + 1 ∧ digitsToNat (ip ++ fp) = m.natAbs := by
  have hdsall := natToDigits_all_digit m.natAbs
  have hdsne := natToDigits_ne_nil m.natAbs
  set ds := natToDigits m.natAbs with hds
  set padded := List.replicate ((e + 2) - ds.length) '0' ++ ds with hpad
  have hplen : padded.length = ((e + 2) - ds.length) + ds.length := by
    rw [hpad, List.length_append, List.length_replicate]
  have hple : e + 2 ≤ padded.length := by
    rw [hplen]; omega
  have hpall : padded.all Char.isDigit = true := by
    rw [hpad, List.all_append, hdsall, Bool.and_true, List.all_eq_true]
    intro c hc
    rw [List.eq_of_mem_replicate hc]
    decide
  refine ⟨padded.take (padded.length - (e + 1)), padded.drop (padded.length - (e + 1)),
    rfl, ?_, ?_, ?_, ?_, ?_⟩
  · have : (padded.take (padded.length - (e + 1))).length = padded.length - (e + 1) := by
      rw [List.length_take]; omega
    intro hnil
    rw [hnil] at this
    simp at this
    omega
  · rw [List.all_eq_true]
    intro c hc
    exact (List.all_eq_true.mp hpall) c (List.take_subset _ _ hc)
  · rw [List.all_eq_true]
    intro c hc
    exact (List.all_eq_true.mp hpall) c (List.drop_subset _ _ hc)
  · rw [List.length_drop]; omega
  · rw [List.take_append_drop, hpad, digitsToNat_replicate_zero, hds,
      digitsToNat_natToDigits]

theorem floatChars_head_not_ws (m : Int) (e : Nat) (c : Char)
    (h : (floatChars m e).head? = some c) : isWsChar c = false := by
  obtain ⟨ip, fp, heq, hipne, hipall, _, _, _⟩ := floatChars_parts m e
  rw [heq] at h
  by_cases hm : m < 0
  · rw [if_pos hm] at h
    simp only [List.cons_append, List.head?_cons, Option.some.injEq] at h
    subst h
    decide
  · rw [if_neg hm, List.nil_append, List.head?_append_of_ne_nil _ hipne] at h
    exact isDigit_not_ws c (head_digit_of_all ip c hipall h)

theorem floatChars_last_digit (m : Int) (e : Nat) (c : Char)
    (h : (floatChars m e).getLast? = some c) : c.isDigit = true := by
  obtain ⟨ip, fp, heq, _, _, hfpall, hfplen, _⟩ := floatChars_parts m e
  have hfpne : fp ≠ [] := by
    intro hnil
    rw [hnil] at hfplen
    simp at hfplen
  rw [heq, List.append_assoc, List.getLast?_append_of_ne_nil _ (by simp)] at h
  rw [List.getLast?_append_of_ne_nil _ (by simp)] at h
  obtain ⟨a, t, hfp⟩ : ∃ a t, fp = a :: t := by
    cases hfp : fp with
    | nil => exact absurd hfp hfpne
    | cons a t => exact ⟨a, t, rfl⟩
  rw [hfp] at h
  rw [show ('.' :: a :: t).getLast? = (a :: t).getLast? from rfl] at h
  exact last_digit_of_all (a :: t) c (by rw [← hfp]; exact hfpall) h

theorem pyStrip_floatChars (m : Int) (e : Nat) :
    pyStrip (floatChars m e) = floatChars m e := by
  apply pyStrip_eq_self
  · exact floatChars_head_not_ws m e
  · intro c hc
    exact isDigit_not_ws c (floatChars_last_digit m e c hc)

theorem all_digit_false_of_dot (l : List Char) (h : '.' ∈ l) :
    l.all Char.isDigit = false := by
  by_contra hb
  rw [Bool.not_eq_false, List.all_eq_true] at hb
  have := hb '.' h
  simp [Char.isDigit] at this

theorem pyIntChars_none_of (t : List Char) (hstrip : pyStrip t = t)
    (h1 : t.all Char.isDigit = false) (h2 : t.tail.all Char.isDigit = false) :
    pyIntChars t = none := by
  unfold pyIntChars
  rw [hstrip]
  by_cases hs : (t.head? = some '-' ∨ t.head? = some '+')
  · simp [hs, h2]
  · simp [hs, h1]

theorem pyFloatChars_body (x ip fp : List Char)
    (htake : x.takeWhile Char.isDigit = ip)
    (hdrop : x.dropWhile Char.isDigit = '.' :: fp)
    (hipne : ip ≠ [])
    (hftake : fp.takeWhile Char.isDigit = fp)
    (hfdrop : fp.dropWhile Char.isDigit = [])
    (hfpne : fp ≠ []) :
    (∀ _hstrip : pyStrip ('-' :: x) = '-' :: x,
      pyFloatChars ('-' :: x) =
        some (- Int.ofNat (digitsToNat (ip ++ fp)), fp.length - 1)) ∧
    (∀ _hstrip : pyStrip x = x,
      x.head? ≠ some '-' → x.head? ≠ some '+' →
      pyFloatChars x = some (Int.ofNat (digitsToNat (ip ++ fp)), fp.length - 1)) := by
  constructor
  · intro hstrip
    unfold pyFloatChars
    rw [hstrip]
    simp only [List.head?_cons, List.tail_cons, Option.some.injEq]
    simp [htake, hdrop, hftake, hfdrop, hipne, hfpne, mkFloatRep]
  · intro hstrip hne1 hne2
    unfold pyFloatChars
    rw [hstrip]
    simp [hne1, hne2, htake, hdrop, hftake, hfdrop, hipne, hfpne, mkFloatRep]

theorem pyIntChars_floatChars (m : Int) (e : Nat) :
    pyIntChars (floatChars m e) = none := by
  obtain ⟨ip, fp, heq, hipne, hipall, hfpall, hfplen, hval⟩ := floatChars_parts m e
  have hstrip := pyStrip_floatChars m e
  apply pyIntChars_none_of _ hstrip
  · apply all_digit_false_of_dot
    rw [heq]
    simp
  · rw [heq]
    by_cases hm : m < 0
    · rw [if_pos hm]
      apply all_digit_false_of_dot
      simp
    · rw [if_neg hm, List.nil_append]
      obtain ⟨a, t, hip⟩ : ∃ a t, ip = a :: t := by
        cases hip : ip with
        | nil => exact absurd hip hipne
        | cons a t => exact ⟨a, t, rfl⟩
      rw [hip]
      apply all_digit_false_of_dot
      simp

theorem pyFloatChars_floatChars (m : Int) (e : Nat) :
    pyFloatChars (floatChars m e) = some (m, e) := by
  obtain ⟨ip, fp, heq, hipne, hipall, hfpall, hfplen, hval⟩ := floatChars_parts m e
  have hstrip := pyStrip_floatChars m e
  have hfpne : fp ≠ [] := by
    intro hnil
    rw [hnil] at hfplen
    simp at hfplen
  have htake : (ip ++ '.' :: fp).takeWhile Char.isDigit = ip :=
    takeWhile_append_stop _ ip '.' fp hipall (by decide)
  have hdrop : (ip ++ '.' :: fp).dropWhile Char.isDigit = '.' :: fp :=
    dropWhile_append_stop _ ip '.' fp hipall (by decide)
  have hftake : fp.takeWhile Char.isDigit = fp := takeWhile_all _ fp hfpall
  have hfdrop : fp.dropWhile Char.isDigit = [] := dropWhile_all _ fp hfpall
  have hbody := pyFloatChars_body (ip ++ '.' :: fp) ip fp htake hdrop hipne
    hftake hfdrop hfpne
  by_cases hm : m < 0
  · have heq' : floatChars m e = '-' :: (ip ++ '.' :: fp) := by
      rw [heq, if_pos hm]
      rfl
    rw [heq'] at hstrip ⊢
    rw [hbody.1 hstrip, hval, hfplen]
    simp only [Option.some.injEq, Prod.mk.injEq]
    have hco : (Int.ofNat m.natAbs) = (m.natAbs : Int) := rfl
    constructor
    · rw [hco]; omega
    · omega
  · have heq' : floatChars m e = ip ++ '.' :: fp := by
      rw [heq, if_neg hm, List.nil_append]
    rw [heq'] at hstrip ⊢
    have hhead : (ip ++ '.' :: fp).head? = some ip.head! := by
      obtain ⟨a, t, hip⟩ : ∃ a t, ip = a :: t := by
        cases hip : ip with
        | nil => exact absurd hip hipne
        | cons a t => exact ⟨a, t, rfl⟩
      rw [hip]
      rfl
    have hadig : ip.head!.isDigit = true :=
      head_digit_of_all ip ip.head! hipall (by
        obtain ⟨a, t, hip⟩ : ∃ a t, ip = a :: t := by
          cases hip : ip with
          | nil => exact absurd hip hipne
          | cons a t => exact ⟨a, t, rfl⟩
        rw [hip]
        rfl)
    have hane := isDigit_ne_vals ip.head! hadig
    rw [hbody.2 hstrip
      (by rw [hhead]; intro hco; rw [Option.some.injEq] at hco; exact hane.2.2.2.1 hco)
      (by rw [hhead]; intro hco; rw [Option.some.injEq] at hco; exact hane.2.2.2.2 hco)]
    rw [hval, hfplen]
    simp only [Option.some.injEq, Prod.mk.injEq]
    have hco : (Int.ofNat m.natAbs) = (m.natAbs : Int) := rfl
    constructor
    · rw [hco]; omega
    · omega

/-- Serialization of every parsed value reparses to the same value:
the numeric core of the codec round trip. -/
theorem parseVal_pyValChars (v : PyVal) : parseVal (pyValChars v) = some v := by
  cases v with
  | vint n =>
    unfold parseVal pyValChars
    rw [pyIntChars_intChars]
  | vfloat m e =>
    unfold parseVal pyValChars
    rw [pyIntChars_floatChars, pyFloatChars_floatChars]

/-- Serialization of every parsed value reparses to the same value. -/
theorem parseVal_pyValChars_roundtrip (v : PyVal) : parseVal (pyValChars v) = some v := by
  cases v with
  | vint n =>
    unfold parseVal pyValChars
    rw [pyIntChars_intChars]
  | vfloat m e =>
    unfold parseVal pyValChars
    rw [pyIntChars_floatChars, pyFloatChars_floatChars]

theorem mem_intChars (n : Int) (c : Char) (h : c ∈ intChars n) :
    c.isDigit = true ∨ c = '-' := by
  unfold intChars at h
  by_cases hn : n < 0
  · rw [if_pos hn] at h
    rcases List.mem_cons.mp h with h1 | h1
    · exact Or.inr h1
    · exact Or.inl (List.all_eq_true.mp (natToDigits_all_digit _) c h1)
  · rw [if_neg hn] at h
    exact Or.inl (List.all_eq_true.mp (natToDigits_all_digit _) c h)

/-- Membership of characters in a serialized value: only digits, `-`, `.`. -/
theorem mem_pyValChars (v : PyVal) (c : Char) (h : c ∈ pyValChars v) :
    c.isDigit = true ∨ c = '-' ∨ c = '.' := by
  cases v with
  | vint n =>
    rcases mem_intChars n c h with h1 | h1
    · exact Or.inl h1
    · exact Or.inr (Or.inl h1)
  | vfloat m e =>
    obtain ⟨ip, fp, heq, _, hipall, hfpall, _, _⟩ := floatChars_parts m e
    have h' : c ∈ floatChars m e := h
    rw [heq, List.mem_append, List.mem_append] at h'
    rcases h' with (h1 | h1) | h1
    · by_cases hm : m < 0
      · rw [if_pos hm] at h1
        rcases List.mem_singleton.mp h1 with rfl
        exact Or.inr (Or.inl rfl)
      · rw [if_neg hm] at h1
        simp at h1
    · exact Or.inl ((List.all_eq_true.mp hipall) c h1)
    · rcases List.mem_cons.mp h1 with h2 | h2
      · exact Or.inr (Or.inr h2)
      · exact Or.inl ((List.all_eq_true.mp hfpall) c h2)

theorem pyValChars_ne_nil (v : PyVal) : pyValChars v ≠ [] := by
  cases v with
  | vint n =>
    show intChars n ≠ []
    unfold intChars
    by_cases hn : n < 0
    · rw [if_pos hn]
      simp
    · rw [if_neg hn]
      exact natToDigits_ne_nil _
  | vfloat m e =>
    obtain ⟨ip, fp, heq, hipne, _, _, _, _⟩ := floatChars_parts m e
    show floatChars m e ≠ []
    rw [heq]
    intro hco
    rcases List.append_eq_nil.mp hco with ⟨h1, h2⟩
    exact List.cons_ne_nil _ _ h2

theorem pyValChars_last_digit (v : PyVal) (c : Char)
    (h : (pyValChars v).getLast? = some c) : c.isDigit = true := by
  cases v with
  | vint n => exact intChars_last_digit n c h
  | vfloat m e => exact floatChars_last_digit m e c h

/- Line-level instruction codec (`parse_gcode` / `make_gcode`). -/

/-- Parameter dictionaries of one instruction: association list from the
single-character key to its numeric value, insertion ordered. -/
abbrev Args := List (Char × PyVal)

/-- `args_dict[k] = v`: replace the value at an existing key (keeping its
position), or append a new entry, as a Python dict assignment. -/
def argsSet (d : Args) (k : Char) (v : PyVal) : Args :=
  match d with
  | [] => [(k, v)]
  | (k', v') :: rest =>
      if k' = k then (k', v) :: rest else (k', v') :: argsSet rest k v

/-- Python `args_dict[k]` as an option (`none` models `KeyError`). -/
def argsGet (d : Args) (k : Char) : Option PyVal :=
  match d with
  | [] => none
  | (k', v') :: rest => if k' = k then some v' else argsGet rest k

/-- Python `k in args_dict.keys()`. -/
def argsHas (d : Args) (k : Char) : Bool :=
  match d with
  | [] => false
  | (k', _) :: rest => if k' = k then true else argsHas rest k

/-- Python `args_dict.pop(k, None)`: drop the entry at key `k` if present. -/
def argsRemove (d : Args) (k : Char) : Args :=
  d.filter (fun kv => decide (kv.1 ≠ k))

/-- Python `line.split(' ')`: split on every single space character. -/
def splitSp : List Char → List (List Char)
  | [] => [[]]
  | c :: rest =>
      if c = ' ' then [] :: splitSp rest
      else
        match splitSp rest with
        | [] => [[c]]
        | t :: ts => (c :: t) :: ts

/-- Python `' '.join(tokens)`. -/
def joinSp : List (List Char) → List Char
  | [] => []
  | t :: ts =>
      match ts with
      | [] => t
      | _ :: _ => t ++ ' ' :: joinSp ts

/-- Comment stripping of `parse_gcode`: `line[:line.find(';')]` when a `;`
occurs, the whole line otherwise (both equal the longest `;`-free prefix). -/
def stripComment (l : List Char) : List Char :=
  l.takeWhile (fun c => decide (c ≠ ';'))

/-- Decode the parameter tokens of a line into the args dict, first token
character as key and the decoded remainder as value; `none` models the
uncaught `ValueError`/`IndexError` of a malformed token. -/
def parseArgsToks (toks : List (List Char)) (d : Args) : Option Args :=
  match toks with
  | [] => some d
  | tok :: rest =>
      match tok with
      | [] => none
      | k :: vcs =>
          match parseVal vcs with
          | none => none
          | some v => parseArgsToks rest (argsSet d k v)

/-- `parse_gcode(line)`: strip the inline comment and whitespace; an empty
result is the no-op sentinel `(None, {})`; otherwise split on spaces into an
operation token and parameter tokens.  `none` models a fatal parse error. -/
def parse_gcode (line : List Char) : Option (Option (List Char) × Args) :=
  let l := pyStrip (stripComment line)
  if l = [] then some (none, [])
  else
    match splitSp l with
    | [] => some (none, [])
    | op :: toks =>
        match parseArgsToks toks [] with
        | none => none
        | some d => some (some op, d)

/-- `make_gcode(op, args_dict)`: join the operation and `key+value` tokens
with single spaces, iterating the dict in its order. -/
def make_gcode (op : List Char) (d : Args) : List Char :=
  joinSp (op :: d.map (fun kv => kv.1 :: pyValChars kv.2))

theorem splitSp_ne_nil (l : List Char) : splitSp l ≠ [] := by
  cases l with
  | nil => simp [splitSp]
  | cons c rest =>
    unfold splitSp
    by_cases hc : c = ' '
    · simp [hc]
    · rw [if_neg hc]
      match splitSp rest with
      | [] => simp
      | t :: ts => simp

theorem splitSp_no_space (l : List Char) (t : List Char) (ht : t ∈ splitSp l) :
    ' ' ∉ t := by
  induction l generalizing t with
  | nil =>
    simp [splitSp] at ht
    subst ht
    simp
  | cons c rest ih =>
    unfold splitSp at ht
    by_cases hc : c = ' '
    · rw [if_pos hc] at ht
      rcases List.mem_cons.mp ht with h1 | h1
      · subst h1
        simp
      · exact ih t h1
    · rw [if_neg hc] at ht
      cases hs : splitSp rest with
      | nil => exact absurd hs (splitSp_ne_nil rest)
      | cons t0 ts =>
        rw [hs] at ht
        rcases List.mem_cons.mp ht with h1 | h1
        · subst h1
          intro hmem
          rcases List.mem_cons.mp hmem with h2 | h2
          · exact hc h2.symm
          · exact ih t0 (by rw [hs]; exact List.mem_cons_self _ _) h2
        · exact ih t (by rw [hs]; exact List.mem_cons_of_mem _ h1)

theorem mem_splitSp (l t : List Char) (c : Char) (ht : t ∈ splitSp l) (hc : c ∈ t) :
    c ∈ l := by
  induction l generalizing t with
  | nil =>
    simp [splitSp] at ht
    subst ht
    simp at hc
  | cons a rest ih =>
    unfold splitSp at ht
    by_cases ha : a = ' '
    · rw [if_pos ha] at ht
      rcases List.mem_cons.mp ht with h1 | h1
      · subst h1
        simp at hc
      · exact List.mem_cons_of_mem _ (ih t h1 hc)
    · rw [if_neg ha] at ht
      cases hs : splitSp rest with
      | nil => exact absurd hs (splitSp_ne_nil rest)
      | cons t0 ts =>
        rw [hs] at ht
        rcases List.mem_cons.mp ht with h1 | h1
        · subst h1
          rcases List.mem_cons.mp hc with h2 | h2
          · subst h2
            exact List.mem_cons_self _ _
          · exact List.mem_cons_of_mem _
              (ih t0 (by rw [hs]; exact List.mem_cons_self _ _) h2)
        · exact List.mem_cons_of_mem _
            (ih t (by rw [hs]; exact List.mem_cons_of_mem _ h1) hc)

theorem splitSp_single (t : List Char) (h : ' ' ∉ t) : splitSp t = [t] := by
  induction t with
  | nil => rfl
  | cons c rest ih =>
    unfold splitSp
    rw [if_neg (by intro hc; exact h (by rw [hc]; exact List.mem_cons_self _ _))]
    rw [ih (fun hmem => h (List.mem_cons_of_mem _ hmem))]

theorem splitSp_sep (t rest : List Char) (h : ' ' ∉ t) :
    splitSp (t ++ ' ' :: rest) = t :: splitSp rest := by
  induction t with
  | nil => simp [splitSp]
  | cons c t' ih =>
    rw [List.cons_append]
    conv_lhs => unfold splitSp
    rw [if_neg (by intro hc; exact h (by rw [hc]; exact List.mem_cons_self _ _))]
    rw [ih (fun hmem => h (List.mem_cons_of_mem _ hmem))]

theorem splitSp_joinSp (ts : List (List Char)) (hne : ts ≠ [])
    (hsp : ∀ t ∈ ts, ' ' ∉ t) : splitSp (joinSp ts) = ts := by
  induction ts with
  | nil => exact absurd rfl hne
  | cons t rest ih =>
    cases rest with
    | nil =>
      show splitSp t = [t]
      exact splitSp_single t (hsp t (List.mem_cons_self _ _))
    | cons t2 rest2 =>
      show splitSp (t ++ ' ' :: joinSp (t2 :: rest2)) = t :: t2 :: rest2
      rw [splitSp_sep t _ (hsp t (List.mem_cons_self _ _))]
      rw [ih (by simp) (fun u hu => hsp u (List.mem_cons_of_mem _ hu))]

theorem splitSp_eq_single (l t : List Char) (h : splitSp l = [t]) : l = t := by
  induction l generalizing t with
  | nil =>
    simp [splitSp] at h
    rw [h]
  | cons c rest ih =>
    unfold splitSp at h
    by_cases hc : c = ' '
    · rw [if_pos hc] at h
      rw [List.cons.injEq] at h
      exact absurd h.2 (splitSp_ne_nil rest)
    · rw [if_neg hc] at h
      cases hs : splitSp rest with
      | nil => exact absurd hs (splitSp_ne_nil rest)
      | cons t0 ts =>
        rw [hs] at h
        rw [List.cons.injEq] at h
        obtain ⟨h1, h2⟩ := h
        subst h2
        rw [← h1, ih t0 hs]

theorem mem_joinSp (ts : List (List Char)) (c : Char) (h : c ∈ joinSp ts) :
    c = ' ' ∨ ∃ t ∈ ts, c ∈ t := by
  induction ts with
  | nil => simp [joinSp] at h
  | cons t rest ih =>
    cases rest with
    | nil =>
      exact Or.inr ⟨t, List.mem_cons_self _ _, h⟩
    | cons t2 rest2 =>
      rw [show joinSp (t :: t2 :: rest2) = t ++ ' ' :: joinSp (t2 :: rest2) from rfl] at h
      rw [List.mem_append] at h
      rcases h with h1 | h1
      · exact Or.inr ⟨t, List.mem_cons_self _ _, h1⟩
      · rcases List.mem_cons.mp h1 with h2 | h2
        · exact Or.inl h2
        · rcases ih h2 with h3 | ⟨u, hu, hcu⟩
          · exact Or.inl h3
          · exact Or.inr ⟨u, List.mem_cons_of_mem _ hu, hcu⟩

theorem argsGet_argsSet (d : Args) (k : Char) (v : PyVal) (k' : Char) :
    argsGet (argsSet d k v) k' = if k = k' then some v else argsGet d k' := by
  induction d with
  | nil =>
    show argsGet [(k, v)] k' = if k = k' then some v else argsGet [] k'
    unfold argsGet
    by_cases hk : k = k'
    · rw [if_pos hk, if_pos hk]
    · rw [if_neg hk, if_neg hk]
      rfl
  | cons kv rest ih =>
    obtain ⟨k0, v0⟩ := kv
    by_cases h0 : k0 = k
    · have hset : argsSet ((k0, v0) :: rest) k v = (k0, v) :: rest := by
        conv_lhs => unfold argsSet
        rw [if_pos h0]
      rw [hset]
      unfold argsGet
      by_cases hk : k0 = k'
      · rw [if_pos hk, if_pos (by rw [← h0]; exact hk)]
      · rw [if_neg hk, if_neg (by rw [← h0]; exact hk), if_neg hk]
    · have hset : argsSet ((k0, v0) :: rest) k v = (k0, v0) :: argsSet rest k v := by
        conv_lhs => unfold argsSet
        rw [if_neg h0]
      rw [hset]
      unfold argsGet
      by_cases hk : k0 = k'
      · rw [if_pos hk, if_neg (fun hco => h0 (hk.trans hco.symm)), if_pos hk]
      · rw [if_neg hk, ih]
        by_cases hkk : k = k'
        · rw [if_pos hkk, if_pos hkk]
        · rw [if_neg hkk, if_neg hkk, if_neg hk]

theorem argsHas_eq_isSome (d : Args) (k : Char) :
    argsHas d k = (argsGet d k).isSome := by
  induction d with
  | nil => rfl
  | cons kv rest ih =>
    obtain ⟨k0, v0⟩ := kv
    unfold argsHas argsGet
    by_cases h0 : k0 = k
    · simp [h0]
    · simp [h0, ih]

theorem argsGet_argsRemove (d : Args) (k k' : Char) :
    argsGet (argsRemove d k) k' = if k' = k then none else argsGet d k' := by
  induction d with
  | nil =>
    by_cases hk : k' = k <;> simp [argsRemove, argsGet, hk]
  | cons kv rest ih =>
    obtain ⟨k0, v0⟩ := kv
    unfold argsRemove at ih ⊢
    rw [List.filter_cons]
    by_cases h0 : k0 = k
    · rw [if_neg (by simp [h0])]
      rw [ih]
      by_cases hk : k' = k
      · rw [if_pos hk, if_pos hk]
      · rw [if_neg hk, if_neg hk]
        show argsGet rest k' = argsGet ((k0, v0) :: rest) k'
        conv_rhs => unfold argsGet
        rw [if_neg (by rw [h0]; intro hco; exact hk hco.symm)]
    · rw [if_pos (by simp [h0])]
      show argsGet ((k0, v0) :: List.filter (fun kv => decide (kv.1 ≠ k)) rest) k' =
        if k' = k then none else argsGet ((k0, v0) :: rest) k'
      rw [show argsGet ((k0, v0) :: List.filter (fun kv => decide (kv.1 ≠ k)) rest) k' =
        if k0 = k' then some v0
        else argsGet (List.filter (fun kv => decide (kv.1 ≠ k)) rest) k' from rfl]
      rw [show argsGet ((k0, v0) :: rest) k' =
        if k0 = k' then some v0 else argsGet rest k' from rfl]
      by_cases hk0 : k0 = k'
      · rw [if_pos hk0, if_neg (fun hco => h0 (hk0.trans hco)), if_pos hk0]
      · rw [if_neg hk0, ih]
        by_cases hk : k' = k
        · rw [if_pos hk, if_pos hk]
        · rw [if_neg hk, if_neg hk, if_neg hk0]

theorem mem_argsSet (d : Args) (k : Char) (v : PyVal) (kv : Char × PyVal)
    (h : kv ∈ argsSet d k v) : kv ∈ d ∨ kv.1 = k := by
  induction d with
  | nil =>
    simp [argsSet] at h
    subst h
    exact Or.inr rfl
  | cons kv0 rest ih =>
    obtain ⟨k0, v0⟩ := kv0
    unfold argsSet at h
    by_cases h0 : k0 = k
    · rw [if_pos h0] at h
      rcases List.mem_cons.mp h with h1 | h1
      · subst h1
        exact Or.inr h0
      · exact Or.inl (List.mem_cons_of_mem _ h1)
    · rw [if_neg h0] at h
      rcases List.mem_cons.mp h with h1 | h1
      · subst h1
        exact Or.inl (List.mem_cons_self _ _)
      · rcases ih h1 with h2 | h2
        · exact Or.inl (List.mem_cons_of_mem _ h2)
        · exact Or.inr h2

theorem argsSet_keys (d : Args) (k : Char) (v : PyVal) :
    (argsSet d k v).map Prod.fst = d.map Prod.fst ∨
    (argsSet d k v).map Prod.fst = d.map Prod.fst ++ [k] := by
  induction d with
  | nil => exact Or.inr rfl
  | cons kv0 rest ih =>
    obtain ⟨k0, v0⟩ := kv0
    unfold argsSet
    by_cases h0 : k0 = k
    · rw [if_pos h0]
      exact Or.inl rfl
    · rw [if_neg h0]
      rcases ih with h1 | h1
      · exact Or.inl (by simp [h1])
      · exact Or.inr (by simp [h1])

theorem argsSet_nodup (d : Args) (k : Char) (v : PyVal)
    (h : (d.map Prod.fst).Nodup) : ((argsSet d k v).map Prod.fst).Nodup := by
  induction d with
  | nil => simp [argsSet]
  | cons kv0 rest ih =>
    obtain ⟨k0, v0⟩ := kv0
    rw [List.map_cons, List.nodup_cons] at h
    unfold argsSet
    by_cases h0 : k0 = k
    · rw [if_pos h0]
      rw [List.map_cons, List.nodup_cons]
      exact h
    · rw [if_neg h0]
      rw [List.map_cons, List.nodup_cons]
      refine ⟨?_, ih h.2⟩
      intro hmem
      rcases argsSet_keys rest k v with h1 | h1
      · rw [h1] at hmem
        exact h.1 hmem
      · rw [h1, List.mem_append] at hmem
        rcases hmem with h2 | h2
        · exact h.1 h2
        · rcases List.mem_singleton.mp h2 with rfl
          exact h0 rfl

theorem argsSet_not_mem_append (d : Args) (k : Char) (v : PyVal)
    (h : ¬ k ∈ d.map Prod.fst) : argsSet d k v = d ++ [(k, v)] := by
  induction d with
  | nil => rfl
  | cons kv0 rest ih =>
    obtain ⟨k0, v0⟩ := kv0
    rw [List.map_cons, List.mem_cons] at h
    push_neg at h
    unfold argsSet
    rw [if_neg (fun hco => h.1 hco.symm), List.cons_append, ih h.2]

theorem argsSet_length (d : Args) (k : Char) (v : PyVal) :
    d.length ≤ (argsSet d k v).length := by
  induction d with
  | nil => simp [argsSet]
  | cons kv0 rest ih =>
    obtain ⟨k0, v0⟩ := kv0
    unfold argsSet
    by_cases h0 : k0 = k
    · rw [if_pos h0]
      simp
    · rw [if_neg h0]
      simp only [List.length_cons]
      omega

theorem parseArgsToks_rebuild (d acc : Args)
    (hnd : ((acc ++ d).map Prod.fst).Nodup) :
    parseArgsToks (d.map (fun kv => kv.1 :: pyValChars kv.2)) acc = some (acc ++ d) := by
  induction d generalizing acc with
  | nil => simp [parseArgsToks]
  | cons kv rest ih =>
    obtain ⟨k, v⟩ := kv
    rw [List.map_cons]
    unfold parseArgsToks
    simp only [parseVal_pyValChars_roundtrip]
    have hknotin : ¬ k ∈ acc.map Prod.fst := by
      intro hmem
      have : ((acc ++ (k, v) :: rest).map Prod.fst) =
          acc.map Prod.fst ++ k :: rest.map Prod.fst := by simp
      rw [this] at hnd
      rcases List.nodup_append.mp hnd with ⟨-, h2, h3⟩
      exact h3 hmem (List.mem_cons_self _ _)
    rw [argsSet_not_mem_append acc k v hknotin]
    rw [ih (acc ++ [(k, v)]) (by
      have : (acc ++ [(k, v)]) ++ rest = acc ++ (k, v) :: rest := by simp
      rw [this]
      exact hnd)]
    simp

theorem parseArgsToks_nodup (toks : List (List Char)) (d args : Args)
    (h : parseArgsToks toks d = some args) (hnd : (d.map Prod.fst).Nodup) :
    (args.map Prod.fst).Nodup := by
  induction toks generalizing d with
  | nil =>
    unfold parseArgsToks at h
    rw [Option.some.injEq] at h
    rw [← h]
    exact hnd
  | cons tok rest ih =>
    unfold parseArgsToks at h
    cases tok with
    | nil => simp at h
    | cons k vcs =>
      have h' : (match parseVal vcs with
          | none => none
          | some v => parseArgsToks rest (argsSet d k v)) = some args := h
      cases hv : parseVal vcs with
      | none =>
        rw [hv] at h'
        simp at h'
      | some v =>
        rw [hv] at h'
        exact ih _ h' (argsSet_nodup d k v hnd)

theorem parseArgsToks_mem (toks : List (List Char)) (d args : Args)
    (h : parseArgsToks toks d = some args) (kv : Char × PyVal) (hkv : kv ∈ args) :
    kv ∈ d ∨ ∃ tok ∈ toks, ∃ vcs, tok = kv.1 :: vcs := by
  induction toks generalizing d with
  | nil =>
    unfold parseArgsToks at h
    rw [Option.some.injEq] at h
    rw [h]
    exact Or.inl hkv
  | cons tok rest ih =>
    unfold parseArgsToks at h
    cases tok with
    | nil => simp at h
    | cons k vcs =>
      have h' : (match parseVal vcs with
          | none => none
          | some v => parseArgsToks rest (argsSet d k v)) = some args := h
      cases hv : parseVal vcs with
      | none =>
        rw [hv] at h'
        simp at h'
      | some v =>
        rw [hv] at h'
        rcases ih _ h' with h1 | ⟨tok2, htok2, vcs2, heq2⟩
        · rcases mem_argsSet d k v kv h1 with h2 | h2
          · exact Or.inl h2
          · exact Or.inr ⟨k :: vcs, List.mem_cons_self _ _, vcs, by rw [h2]⟩
        · exact Or.inr ⟨tok2, List.mem_cons_of_mem _ htok2, vcs2, heq2⟩

theorem parseArgsToks_length (toks : List (List Char)) (d args : Args)
    (h : parseArgsToks toks d = some args) : d.length ≤ args.length := by
  induction toks generalizing d with
  | nil =>
    unfold parseArgsToks at h
    rw [Option.some.injEq] at h
    rw [← h]
  | cons tok rest ih =>
    unfold parseArgsToks at h
    cases tok with
    | nil => simp at h
    | cons k vcs =>
      have h' : (match parseVal vcs with
          | none => none
          | some v => parseArgsToks rest (argsSet d k v)) = some args := h
      cases hv : parseVal vcs with
      | none =>
        rw [hv] at h'
        simp at h'
      | some v =>
        rw [hv] at h'
        exact le_trans (argsSet_length d k v) (ih _ h')

theorem head_dropWhile_false (p : Char → Bool) (l : List Char) (c : Char)
    (h : (l.dropWhile p).head? = some c) : p c = false := by
  induction l with
  | nil => simp [List.dropWhile] at h
  | cons a t ih =>
    rw [List.dropWhile_cons] at h
    by_cases ha : p a
    · rw [if_pos ha] at h
      exact ih h
    · rw [if_neg ha] at h
      rw [List.head?_cons, Option.some.injEq] at h
      rw [← h]
      exact Bool.not_eq_true _ |>.mp ha

theorem pyStrip_prefix_core (l : List Char) :
    pyStrip l <+: l.dropWhile isWsChar := by
  unfold pyStrip
  have h1 : (l.dropWhile isWsChar).reverse.dropWhile isWsChar <:+
      (l.dropWhile isWsChar).reverse := List.dropWhile_suffix _
  have h2 := List.reverse_prefix.mpr h1
  rw [List.reverse_reverse] at h2
  exact h2

theorem pyStrip_head_not_ws (l : List Char) (c : Char)
    (h : (pyStrip l).head? = some c) : isWsChar c = false := by
  obtain ⟨t, ht⟩ := pyStrip_prefix_core l
  have hne : pyStrip l ≠ [] := by
    intro hnil
    rw [hnil] at h
    simp at h
  have : (l.dropWhile isWsChar).head? = some c := by
    rw [← ht, List.head?_append_of_ne_nil _ hne, h]
  exact head_dropWhile_false _ l c this

theorem pyStrip_last_not_ws (l : List Char) (c : Char)
    (h : (pyStrip l).getLast? = some c) : isWsChar c = false := by
  unfold pyStrip at h
  rw [List.getLast?_reverse] at h
  exact head_dropWhile_false _ _ c h

theorem mem_stripComment_ne_semi (l : List Char) (c : Char)
    (h : c ∈ stripComment l) : c ≠ ';' := by
  have := List.mem_takeWhile_imp h
  rw [decide_eq_true_eq] at this
  exact this

theorem mem_stripComment (l : List Char) (c : Char) (h : c ∈ stripComment l) :
    c ∈ l := (List.takeWhile_prefix _).subset h

theorem parse_gcode_some_elim (line : List Char) (op : List Char) (args : Args)
    (h : parse_gcode line = some (some op, args)) :
    ∃ toks, pyStrip (stripComment line) ≠ [] ∧
      splitSp (pyStrip (stripComment line)) = op :: toks ∧
      parseArgsToks toks [] = some args := by
  unfold parse_gcode at h
  by_cases hl : pyStrip (stripComment line) = []
  · rw [if_pos hl] at h
    simp at h
  · rw [if_neg hl] at h
    cases hs : splitSp (pyStrip (stripComment line)) with
    | nil => exact absurd hs (splitSp_ne_nil _)
    | cons op0 toks =>
      rw [hs] at h
      have h' : (match parseArgsToks toks [] with
          | none => none
          | some d => some (some op0, d)) = some (some op, args) := h
      cases hp : parseArgsToks toks [] with
      | none =>
        rw [hp] at h'
        simp at h'
      | some d =>
        rw [hp] at h'
        simp only [Option.some.injEq, Prod.mk.injEq] at h'
        obtain ⟨h1, h2⟩ := h'
        subst h1
        subst h2
        exact ⟨toks, hl, rfl, hp⟩

theorem isWs_false_ne_space (c : Char) (h : isWsChar c = false) : c ≠ ' ' := by
  intro hco
  rw [hco] at h
  simp [isWsChar] at h

theorem parseArgsToks_cons_ne_nil (tok : List Char) (rest : List (List Char))
    (args : Args) (h : parseArgsToks (tok :: rest) [] = some args) : args ≠ [] := by
  unfold parseArgsToks at h
  cases tok with
  | nil => simp at h
  | cons k vcs =>
    have h' : (match parseVal vcs with
        | none => none
        | some v => parseArgsToks rest (argsSet [] k v)) = some args := h
    cases hv : parseVal vcs with
    | none =>
      rw [hv] at h'
      simp at h'
    | some v =>
      rw [hv] at h'
      have := parseArgsToks_length rest (argsSet [] k v) args h'
      simp [argsSet] at this
      intro hco
      rw [hco] at this
      simp at this

/-- Structural facts about the operation token and args produced by a
successful parse; these are exactly the preconditions under which
serialization re-parses. -/
theorem parse_gcode_shape (line : List Char) (op : List Char) (args : Args)
    (h : parse_gcode line = some (some op, args)) :
    op ≠ [] ∧ ' ' ∉ op ∧ ';' ∉ op ∧
    (∀ c, op.head? = some c → isWsChar c = false) ∧
    (args = [] → ∀ c, op.getLast? = some c → isWsChar c = false) ∧
    (∀ kv ∈ args, kv.1 ≠ ' ' ∧ kv.1 ≠ ';') ∧
    (args.map Prod.fst).Nodup := by
  obtain ⟨toks, hl, hs, hp⟩ := parse_gcode_some_elim line op args h
  have hopmem : op ∈ splitSp (pyStrip (stripComment line)) := by
    rw [hs]
    exact List.mem_cons_self _ _
  have hopsp : ' ' ∉ op := splitSp_no_space _ op hopmem
  have hmeml : ∀ c ∈ op, c ∈ pyStrip (stripComment line) :=
    fun c hc => mem_splitSp _ op c hopmem hc
  have hopsemi : ';' ∉ op := by
    intro hmem
    exact mem_stripComment_ne_semi _ ';' (mem_pyStrip _ ';' (hmeml ';' hmem)) rfl
  obtain ⟨a, l', hlc⟩ : ∃ a l', pyStrip (stripComment line) = a :: l' := by
    cases hlc : pyStrip (stripComment line) with
    | nil => exact absurd hlc hl
    | cons a l' => exact ⟨a, l', rfl⟩
  have hanws : isWsChar a = false := pyStrip_head_not_ws _ a (by rw [hlc]; rfl)
  have hasp : a ≠ ' ' := isWs_false_ne_space a hanws
  have hophead : ∃ t', op = a :: t' := by
    rw [hlc] at hs
    unfold splitSp at hs
    rw [if_neg hasp] at hs
    cases hsp2 : splitSp l' with
    | nil => exact absurd hsp2 (splitSp_ne_nil _)
    | cons t0 ts =>
      rw [hsp2] at hs
      rw [List.cons.injEq] at hs
      exact ⟨t0, hs.1.symm⟩
  obtain ⟨t', hop⟩ := hophead
  refine ⟨by rw [hop]; simp, hopsp, hopsemi, ?_, ?_, ?_, ?_⟩
  · intro c hc
    rw [hop, List.head?_cons, Option.some.injEq] at hc
    rw [← hc]
    exact hanws
  · intro hargs c hc
    have htoks : toks = [] := by
      cases ht : toks with
      | nil => rfl
      | cons tok rest =>
        rw [ht] at hp
        rw [hargs] at hp
        exact absurd rfl (parseArgsToks_cons_ne_nil tok rest [] hp)
    rw [htoks] at hs
    have hle := splitSp_eq_single _ op hs
    rw [← hle] at hc
    exact pyStrip_last_not_ws _ c hc
  · intro kv hkv
    rcases parseArgsToks_mem toks [] args hp kv hkv with h1 | ⟨tok, htok, vcs, htokeq⟩
    · simp at h1
    · have htokmem : tok ∈ splitSp (pyStrip (stripComment line)) := by
        rw [hs]
        exact List.mem_cons_of_mem _ htok
      have hkmem : kv.1 ∈ tok := by
        rw [htokeq]
        exact List.mem_cons_self _ _
      constructor
      · intro hco
        exact splitSp_no_space _ tok htokmem (by rw [← hco]; exact hkmem)
      · intro hco
        apply mem_stripComment_ne_semi _ kv.1
          (mem_pyStrip _ kv.1 (mem_splitSp _ tok kv.1 htokmem hkmem)) hco
  · exact parseArgsToks_nodup toks [] args hp (by simp)

theorem joinSp_ne_nil (t : List Char) (ts : List (List Char)) (ht : t ≠ []) :
    joinSp (t :: ts) ≠ [] := by
  cases ts with
  | nil => exact ht
  | cons t2 r =>
    show t ++ ' ' :: joinSp (t2 :: r) ≠ []
    simp

theorem joinSp_head (t : List Char) (ts : List (List Char)) (ht : t ≠ []) :
    (joinSp (t :: ts)).head? = t.head? := by
  cases ts with
  | nil => rfl
  | cons t2 r =>
    show (t ++ ' ' :: joinSp (t2 :: r)).head? = t.head?
    exact List.head?_append_of_ne_nil _ ht

theorem joinSp_last (ts : List (List Char)) (hne : ts ≠ [])
    (hts : ∀ t ∈ ts, t ≠ []) :
    ∃ t ∈ ts, (joinSp ts).getLast? = t.getLast? := by
  induction ts with
  | nil => exact absurd rfl hne
  | cons t rest ih =>
    cases rest with
    | nil => exact ⟨t, List.mem_cons_self _ _, rfl⟩
    | cons t2 r =>
      obtain ⟨u, hu, hlast⟩ := ih (by simp)
        (fun x hx => hts x (List.mem_cons_of_mem _ hx))
      refine ⟨u, List.mem_cons_of_mem _ hu, ?_⟩
      show (t ++ ' ' :: joinSp (t2 :: r)).getLast? = u.getLast?
      rw [List.getLast?_append_of_ne_nil _ (by simp)]
      have hj : joinSp (t2 :: r) ≠ [] :=
        joinSp_ne_nil t2 r (hts t2 (List.mem_cons_of_mem _ (List.mem_cons_self _ _)))
      obtain ⟨a, l', hjl⟩ : ∃ a l', joinSp (t2 :: r) = a :: l' := by
        cases hjl : joinSp (t2 :: r) with
        | nil => exact absurd hjl hj
        | cons a l' => exact ⟨a, l', rfl⟩
      rw [hjl]
      rw [show (' ' :: a :: l').getLast? = (a :: l').getLast? from rfl]
      rw [← hjl, hlast]

theorem joinSp_last_tail (t : List Char) (ts : List (List Char)) (hne : ts ≠ [])
    (hts : ∀ u ∈ ts, u ≠ []) :
    ∃ u ∈ ts, (joinSp (t :: ts)).getLast? = u.getLast? := by
  cases ts with
  | nil => exact absurd rfl hne
  | cons t2 r =>
    obtain ⟨u, hu, hlast⟩ := joinSp_last (t2 :: r) (by simp) hts
    refine ⟨u, hu, ?_⟩
    show (t ++ ' ' :: joinSp (t2 :: r)).getLast? = u.getLast?
    rw [List.getLast?_append_of_ne_nil _ (by simp)]
    have hj : joinSp (t2 :: r) ≠ [] :=
      joinSp_ne_nil t2 r (hts t2 (List.mem_cons_self _ _))
    obtain ⟨a, l', hjl⟩ : ∃ a l', joinSp (t2 :: r) = a :: l' := by
      cases hjl : joinSp (t2 :: r) with
      | nil => exact absurd hjl hj
      | cons a l' => exact ⟨a, l', rfl⟩
    rw [hjl]
    rw [show (' ' :: a :: l').getLast? = (a :: l').getLast? from rfl]
    rw [← hjl, hlast]

/-- Serializing a well-shaped operation and dict yields a line that parses
back to exactly that operation and dict (`parse_gcode` of `make_gcode`). -/
theorem parse_make_gcode (op : List Char) (d : Args)
    (hop_ne : op ≠ []) (hop_sp : ' ' ∉ op) (hop_semi : ';' ∉ op)
    (hop_head : ∀ c, op.head? = some c → isWsChar c = false)
    (hop_last : d = [] → ∀ c, op.getLast? = some c → isWsChar c = false)
    (hkeys : ∀ kv ∈ d, kv.1 ≠ ' ' ∧ kv.1 ≠ ';')
    (hnd : (d.map Prod.fst).Nodup) :
    parse_gcode (make_gcode op d) = some (some op, d) := by
  have htokne : ∀ kv : Char × PyVal, (kv.1 :: pyValChars kv.2) ≠ [] := by
    intro kv
    simp
  have htoksp : ∀ t ∈ op :: d.map (fun kv => kv.1 :: pyValChars kv.2), ' ' ∉ t := by
    intro t ht
    rcases List.mem_cons.mp ht with h1 | h1
    · rw [h1]
      exact hop_sp
    · obtain ⟨kv, hkv, heq⟩ := List.mem_map.mp h1
      rw [← heq]
      intro hmem
      rcases List.mem_cons.mp hmem with h2 | h2
      · exact (hkeys kv hkv).1 h2.symm
      · rcases mem_pyValChars kv.2 ' ' h2 with h3 | h3 | h3
        · simp [Char.isDigit] at h3
        · simp at h3
        · simp at h3
  have hjsemi : ∀ c ∈ make_gcode op d, c ≠ ';' := by
    intro c hc
    rcases mem_joinSp _ c hc with h1 | ⟨t, ht, hct⟩
    · rw [h1]
      simp
    · rcases List.mem_cons.mp ht with h2 | h2
      · intro hco
        rw [h2] at hct
        rw [hco] at hct
        exact hop_semi hct
      · obtain ⟨kv, hkv, heq⟩ := List.mem_map.mp h2
        rw [← heq] at hct
        rcases List.mem_cons.mp hct with h3 | h3
        · intro hco
          rw [hco] at h3
          exact (hkeys kv hkv).2 h3.symm
        · intro hco
          rw [hco] at h3
          rcases mem_pyValChars kv.2 ';' h3 with h4 | h4 | h4
          · simp [Char.isDigit] at h4
          · simp at h4
          · simp at h4
  have hstrip1 : stripComment (make_gcode op d) = make_gcode op d := by
    unfold stripComment
    apply takeWhile_all
    rw [List.all_eq_true]
    intro c hc
    rw [decide_eq_true_eq]
    exact hjsemi c hc
  have hjhead : (make_gcode op d).head? = op.head? := joinSp_head op _ hop_ne
  have hjne : make_gcode op d ≠ [] := joinSp_ne_nil op _ hop_ne
  have hjlastws : ∀ c, (make_gcode op d).getLast? = some c → isWsChar c = false := by
    intro c hc
    cases hd : d with
    | nil =>
      rw [hd] at hc
      exact hop_last hd c (by rw [← hc]; rfl)
    | cons kv0 rest0 =>
      obtain ⟨u, hu, hlast⟩ := joinSp_last_tail op
        (d.map (fun kv => kv.1 :: pyValChars kv.2))
        (by rw [hd]; simp)
        (by
          intro u hu
          obtain ⟨kv, hkv, heq⟩ := List.mem_map.mp hu
          rw [← heq]
          simp)
      rw [show make_gcode op d =
        joinSp (op :: d.map (fun kv => kv.1 :: pyValChars kv.2)) from rfl] at hc
      rw [hlast] at hc
      obtain ⟨kv, hkv, heq⟩ := List.mem_map.mp hu
      rw [← heq] at hc
      have hvne := pyValChars_ne_nil kv.2
      obtain ⟨a, l', hvl⟩ : ∃ a l', pyValChars kv.2 = a :: l' := by
        cases hvl : pyValChars kv.2 with
        | nil => exact absurd hvl hvne
        | cons a l' => exact ⟨a, l', rfl⟩
      rw [hvl] at hc
      rw [show (kv.1 :: a :: l').getLast? = (a :: l').getLast? from rfl] at hc
      rw [← hvl] at hc
      exact isDigit_not_ws c (pyValChars_last_digit kv.2 c hc)
  have hstrip2 : pyStrip (make_gcode op d) = make_gcode op d := by
    apply pyStrip_eq_self
    · intro c hc
      rw [hjhead] at hc
      exact hop_head c hc
    · exact hjlastws
  have hsplit : splitSp (make_gcode op d) =
      op :: d.map (fun kv => kv.1 :: pyValChars kv.2) :=
    splitSp_joinSp _ (by simp) htoksp
  have hre : parseArgsToks (d.map (fun kv => kv.1 :: pyValChars kv.2)) [] = some d := by
    have := parseArgsToks_rebuild d [] (by simpa using hnd)
    simpa using this
  unfold parse_gcode
  rw [hstrip1, hstrip2]
  rw [if_neg hjne]
  rw [hsplit]
  show (match parseArgsToks (d.map (fun kv => kv.1 :: pyValChars kv.2)) [] with
      | none => none
      | some d2 => some (some op, d2)) = some (some op, d)
  rw [hre]

/- Instruction rewriter (`rewrite` / `rewrite_move`). -/

/-- The three-tier parameter edit of `rewrite`: apply `override` entries only
to keys already present, then `force` entries unconditionally, then remove
the `delete` keys (the exact loop order of the source). -/
def editArgs (args : Args) (override force : List (Char × PyVal))
    (delete : List Char) : Args :=
  delete.foldl (fun dd k => argsRemove dd k)
    (force.foldl (fun dd kv => argsSet dd kv.1 kv.2)
      (override.foldl
        (fun dd kv => if argsHas dd kv.1 then argsSet dd kv.1 kv.2 else dd) args))

/-- `rewrite(gcode_string, op_regex, override, force, delete)`: pass the line
through unchanged when it is a no-op or its operation does not match,
otherwise edit the parsed args and re-serialize; `none` models a fatal parse
error. -/
def rewrite (gcode_string : List Char) (op_matcher : List Char → Bool)
    (override force : List (Char × PyVal)) (delete : List Char) :
    Option (List Char) :=
  match parse_gcode gcode_string with
  | none => none
  | some (none, _) => some gcode_string
  | some (some op, args) =>
      if op_matcher op then some (make_gcode op (editArgs args override force delete))
      else some gcode_string

/-- The `^G[01]$` move-operation matcher. -/
def moveMatchB (op : List Char) : Bool :=
  op = ('G' :: ['0']) || op = ('G' :: ['1'])

/-- `rewrite_move(line, feed_override, z_force)`: always override the feed
rate and delete the extrusion parameter; force the height when `z_force` is
given, else delete it. -/
def rewrite_move (line : List Char) (feed_override : PyVal)
    (z_force : Option PyVal) : Option (List Char) :=
  match z_force with
  | none => rewrite line moveMatchB [('F', feed_override)] [] ['E', 'Z']
  | some z => rewrite line moveMatchB [('F', feed_override)] [('Z', z)] ['E']

theorem argsHas_argsSet (d : Args) (k0 : Char) (v : PyVal) (k : Char)
    (hk : k0 ≠ k) : argsHas (argsSet d k0 v) k = argsHas d k := by
  induction d with
  | nil => simp [argsSet, argsHas, hk]
  | cons kv rest ih =>
    obtain ⟨k1, v1⟩ := kv
    by_cases h1 : k1 = k0
    · have hset : argsSet ((k1, v1) :: rest) k0 v = (k1, v) :: rest := by
        conv_lhs => unfold argsSet
        rw [if_pos h1]
      rw [hset]
      unfold argsHas
      by_cases h2 : k1 = k
      · simp [h2]
      · simp [h2]
    · have hset : argsSet ((k1, v1) :: rest) k0 v = (k1, v1) :: argsSet rest k0 v := by
        conv_lhs => unfold argsSet
        rw [if_neg h1]
      rw [hset]
      unfold argsHas
      by_cases h2 : k1 = k
      · simp [h2]
      · simp [h2, ih]

theorem argsGet_none_of_not_mem (d : Args) (k : Char)
    (h : k ∉ d.map Prod.fst) : argsGet d k = none := by
  induction d with
  | nil => rfl
  | cons kv rest ih =>
    obtain ⟨k1, v1⟩ := kv
    rw [List.map_cons, List.mem_cons] at h
    push_neg at h
    unfold argsGet
    rw [if_neg (fun hco => h.1 hco.symm)]
    exact ih h.2

theorem overFold_get (ov : List (Char × PyVal)) (d : Args) (k : Char)
    (hnd : (ov.map Prod.fst).Nodup) :
    argsGet (ov.foldl
        (fun dd kv => if argsHas dd kv.1 then argsSet dd kv.1 kv.2 else dd) d) k =
      match argsGet ov k with
      | some v => if argsHas d k then some v else argsGet d k
      | none => argsGet d k := by
  induction ov generalizing d with
  | nil => rfl
  | cons kv0 rest ih =>
    obtain ⟨k0, v0⟩ := kv0
    rw [List.map_cons, List.nodup_cons] at hnd
    rw [List.foldl_cons]
    rw [ih _ hnd.2]
    by_cases hk : k0 = k
    · subst hk
      have hrest : argsGet rest k0 = none := argsGet_none_of_not_mem rest k0 hnd.1
      rw [hrest]
      have hov : argsGet ((k0, v0) :: rest) k0 = some v0 := by
        unfold argsGet
        rw [if_pos rfl]
      rw [hov]
      show argsGet (if argsHas d k0 then argsSet d k0 v0 else d) k0 =
        if argsHas d k0 then some v0 else argsGet d k0
      by_cases hh : argsHas d k0
      · rw [if_pos hh, if_pos hh, argsGet_argsSet, if_pos rfl]
      · rw [if_neg hh, if_neg hh]
    · have hov : argsGet ((k0, v0) :: rest) k = argsGet rest k := by
        conv_lhs => unfold argsGet
        rw [if_neg hk]
      rw [hov]
      have hhas : argsHas (if argsHas d k0 then argsSet d k0 v0 else d) k =
          argsHas d k := by
        by_cases hh : argsHas d k0
        · rw [if_pos hh]
          exact argsHas_argsSet d k0 v0 k hk
        · rw [if_neg hh]
      have hget : argsGet (if argsHas d k0 then argsSet d k0 v0 else d) k =
          argsGet d k := by
        by_cases hh : argsHas d k0
        · rw [if_pos hh, argsGet_argsSet, if_neg hk]
        · rw [if_neg hh]
      show (match argsGet rest k with
          | some v => if argsHas (if argsHas d k0 then argsSet d k0 v0 else d) k
              then some v else argsGet (if argsHas d k0 then argsSet d k0 v0 else d) k
          | none => argsGet (if argsHas d k0 then argsSet d k0 v0 else d) k) =
        match argsGet rest k with
        | some v => if argsHas d k then some v else argsGet d k
        | none => argsGet d k
      rw [hhas, hget]

theorem forceFold_get (fc : List (Char × PyVal)) (d : Args) (k : Char)
    (hnd : (fc.map Prod.fst).Nodup) :
    argsGet (fc.foldl (fun dd kv => argsSet dd kv.1 kv.2) d) k =
      match argsGet fc k with
      | some v => some v
      | none => argsGet d k := by
  induction fc generalizing d with
  | nil => rfl
  | cons kv0 rest ih =>
    obtain ⟨k0, v0⟩ := kv0
    rw [List.map_cons, List.nodup_cons] at hnd
    rw [List.foldl_cons]
    rw [ih _ hnd.2]
    by_cases hk : k0 = k
    · subst hk
      rw [argsGet_none_of_not_mem rest k0 hnd.1]
      have hov : argsGet ((k0, v0) :: rest) k0 = some v0 := by
        conv_lhs => unfold argsGet
        rw [if_pos rfl]
      rw [hov]
      show argsGet (argsSet d k0 v0) k0 = some v0
      rw [argsGet_argsSet, if_pos rfl]
    · have hov : argsGet ((k0, v0) :: rest) k = argsGet rest k := by
        conv_lhs => unfold argsGet
        rw [if_neg hk]
      rw [hov]
      have hget : argsGet (argsSet d k0 v0) k = argsGet d k := by
        rw [argsGet_argsSet, if_neg hk]
      show (match argsGet rest k with
          | some v => some v
          | none => argsGet (argsSet d k0 v0) k) =
        match argsGet rest k with
        | some v => some v
        | none => argsGet d k
      rw [hget]

theorem delFold_get (dl : List Char) (d : Args) (k : Char) :
    argsGet (dl.foldl (fun dd k0 => argsRemove dd k0) d) k =
      if k ∈ dl then none else argsGet d k := by
  induction dl generalizing d with
  | nil => simp
  | cons k0 rest ih =>
    rw [List.foldl_cons, ih]
    by_cases hk : k ∈ rest
    · rw [if_pos hk, if_pos (List.mem_cons_of_mem _ hk)]
    · rw [if_neg hk]
      by_cases hk0 : k = k0
      · rw [if_pos (by rw [hk0]; exact List.mem_cons_self _ _)]
        rw [argsGet_argsRemove, if_pos hk0]
      · rw [if_neg (by
          intro hmem
          rcases List.mem_cons.mp hmem with h1 | h1
          · exact hk0 h1
          · exact hk h1)]
        rw [argsGet_argsRemove, if_neg hk0]

/-- Full lookup characterization of the three-tier edit of `rewrite`. -/
theorem editArgs_get (args : Args) (ov fc : List (Char × PyVal)) (dl : List Char)
    (k : Char) (hndov : (ov.map Prod.fst).Nodup) (hndfc : (fc.map Prod.fst).Nodup) :
    argsGet (editArgs args ov fc dl) k =
      if k ∈ dl then none
      else
        match argsGet fc k with
        | some v => some v
        | none =>
            match argsGet ov k with
            | some v => if argsHas args k then some v else argsGet args k
            | none => argsGet args k := by
  unfold editArgs
  rw [delFold_get]
  by_cases hdl : k ∈ dl
  · rw [if_pos hdl, if_pos hdl]
  · rw [if_neg hdl, if_neg hdl]
    rw [forceFold_get _ _ _ hndfc]
    cases hfc : argsGet fc k
    · rw [overFold_get _ _ _ hndov]
    · rfl

/-- C9: for every instruction line that parses to an operation with a
parameter mapping (in particular every line of canonical single-letter
parameter tokens without an inline comment), serializing the parse with
`make_gcode` yields a line that parses back to the same operation and the
same parameter key-to-value mapping — semantic equality, with no guarantee
of byte identity or parameter order. -/
theorem c9_parse_serialize_roundtrip (line op : List Char) (args : Args)
    (h : parse_gcode line = some (some op, args)) :
    parse_gcode (make_gcode op args) = some (some op, args) := by
  obtain ⟨h1, h2, h3, h4, h5, h6, h7⟩ := parse_gcode_shape line op args h
  exact parse_make_gcode op args h1 h2 h3 h4 h5 h6 h7

theorem c9_parse_serialize_roundtrip_witness :
    parse_gcode (String.data "G1 X1.25 F2000") =
      some (some (String.data "G1"),
        [('X', PyVal.vfloat 125 1), ('F', PyVal.vint 2000)]) ∧
    parse_gcode (make_gcode (String.data "G1")
        [('X', PyVal.vfloat 125 1), ('F', PyVal.vint 2000)]) =
      some (some (String.data "G1"),
        [('X', PyVal.vfloat 125 1), ('F', PyVal.vint 2000)]) :=
  ⟨by decide, c9_parse_serialize_roundtrip (String.data "G1 X1.25 F2000") _ _ (by decide)⟩

/-- C8: `rewrite` returns the original line byte-for-byte when the parse is
the no-op sentinel or the operation fails the matcher; when the operation
matches, each override key replaces the value only if already present, each
force key sets its value unconditionally (adding the key if absent), each
delete key is removed if present, and the result is the re-serialization of
the edited parameter dict. -/
theorem c8_rewrite_contract (line : List Char) (op_matcher : List Char → Bool)
    (ov fc : List (Char × PyVal)) (dl : List Char)
    (hndov : (ov.map Prod.fst).Nodup) (hndfc : (fc.map Prod.fst).Nodup) :
    (∀ args, parse_gcode line = some (none, args) →
      rewrite line op_matcher ov fc dl = some line) ∧
    (∀ op args, parse_gcode line = some (some op, args) → op_matcher op = false →
      rewrite line op_matcher ov fc dl = some line) ∧
    (∀ op args, parse_gcode line = some (some op, args) → op_matcher op = true →
      rewrite line op_matcher ov fc dl =
        some (make_gcode op (editArgs args ov fc dl)) ∧
      (∀ k, argsGet (editArgs args ov fc dl) k =
        if k ∈ dl then none
        else
          match argsGet fc k with
          | some v => some v
          | none =>
              match argsGet ov k with
              | some v => if argsHas args k then some v else argsGet args k
              | none => argsGet args k)) := by
  refine ⟨?_, ?_, ?_⟩
  · intro args h
    unfold rewrite
    rw [h]
  · intro op args h hm
    unfold rewrite
    rw [h]
    show (if op_matcher op = true then
        some (make_gcode op (editArgs args ov fc dl)) else some line) = some line
    rw [hm]
    simp
  · intro op args h hm
    constructor
    · unfold rewrite
      rw [h]
      show (if op_matcher op = true then
          some (make_gcode op (editArgs args ov fc dl)) else some line) =
        some (make_gcode op (editArgs args ov fc dl))
      rw [hm]
      simp
    · intro k
      exact editArgs_get args ov fc dl k hndov hndfc

theorem c8_rewrite_contract_witness :
    parse_gcode (String.data "G1 F6400 X100 Y200") =
      some (some (String.data "G1"),
        [('F', PyVal.vint 6400), ('X', PyVal.vint 100), ('Y', PyVal.vint 200)]) ∧
    moveMatchB (String.data "G1") = true ∧
    rewrite (String.data "G1 F6400 X100 Y200") moveMatchB
        [('F', PyVal.vint 400)] [('Z', PyVal.vint 9)] ['Y'] =
      some (make_gcode (String.data "G1")
        (editArgs [('F', PyVal.vint 6400), ('X', PyVal.vint 100), ('Y', PyVal.vint 200)]
          [('F', PyVal.vint 400)] [('Z', PyVal.vint 9)] ['Y'])) ∧
    parse_gcode (String.data "M104 T1 S200") =
      some (some (String.data "M104"),
        [('T', PyVal.vint 1), ('S', PyVal.vint 200)]) ∧
    moveMatchB (String.data "M104") = false ∧
    rewrite (String.data "M104 T1 S200") moveMatchB
        [('F', PyVal.vint 400)] [('Z', PyVal.vint 9)] ['Y'] =
      some (String.data "M104 T1 S200") := by
  refine ⟨by decide, by decide, ?_, by decide, by decide, ?_⟩
  · exact ((c8_rewrite_contract (String.data "G1 F6400 X100 Y200") moveMatchB
      [('F', PyVal.vint 400)] [('Z', PyVal.vint 9)] ['Y']
      (by decide) (by decide)).2.2 (String.data "G1")
      [('F', PyVal.vint 6400), ('X', PyVal.vint 100), ('Y', PyVal.vint 200)]
      (by decide) (by decide)).1
  · exact (c8_rewrite_contract (String.data "M104 T1 S200") moveMatchB
      [('F', PyVal.vint 400)] [('Z', PyVal.vint 9)] ['Y']
      (by decide) (by decide)).2.1 (String.data "M104")
      [('T', PyVal.vint 1), ('S', PyVal.vint 200)] (by decide) (by decide)

/- Stream state tracker (`Processor`) and temperature tracker
(`TempProcessor`). -/

/-- Python dict keyed by tool numbers; keys are compared with Python numeric
equality, as in CPython dict lookup on int/float keys. -/
abbrev PyDict (α : Type) := List (PyVal × α)

/-- Dict lookup (`d[k]` as an option; `none` models `KeyError`). -/
def pyDGet {α : Type} (d : PyDict α) (k : PyVal) : Option α :=
  match d with
  | [] => none
  | (k', v') :: rest => if pyEqB k' k then some v' else pyDGet rest k

/-- Dict membership (`k in d.keys()` / `d.has_key(k)`). -/
def pyDHas {α : Type} (d : PyDict α) (k : PyVal) : Bool :=
  match d with
  | [] => false
  | (k', _) :: rest => if pyEqB k' k then true else pyDHas rest k

/-- Dict assignment `d[k] = v`: update the first key equal to `k` (keeping
the stored key object), else append. -/
def pyDSet {α : Type} (d : PyDict α) (k : PyVal) (v : α) : PyDict α :=
  match d with
  | [] => [(k, v)]
  | (k', v') :: rest =>
      if pyEqB k' k then (k', v) :: rest else (k', v') :: pyDSet rest k v

/-- The shared tracker state: `Processor` fields (`active_tool`,
`current_z`) plus the `TempProcessor` temperature maps. -/
structure TPState where
  active_tool : PyVal
  current_z : PyVal
  idle_temps : PyDict PyVal
  printing_temps : PyDict PyVal
  target_temps : PyDict PyVal
  reached_target : PyDict Bool
deriving DecidableEq, Repr

/-- Initial tracker state: tool 0, height 0, empty temperature maps. -/
def tpInit : TPState :=
  ⟨PyVal.vint 0, PyVal.vint 0, [], [], [], []⟩

/-- `Processor.process_tool_change`: a line fully matching `^T[0-9]*$` sets
the active tool; `none` models the `ValueError` of `int('')` on a bare `T`. -/
def process_tool_change (s : TPState) (l : List Char) : Option TPState :=
  match l with
  | 'T' :: rest =>
      if rest.all Char.isDigit then
        if rest = [] then none
        else some { s with active_tool := PyVal.vint (Int.ofNat (digitsToNat rest)) }
      else some s
  | _ => some s

/-- The value group captured by `move_z_regex` after the first `Z`: one
digit, then greedily one more character and its trailing digits. -/
def zGroup (d : Char) (tail : List Char) : List Char :=
  d :: (match tail with
        | [] => []
        | c :: cs => c :: cs.takeWhile Char.isDigit)

/-- `Processor.process_z_move`: a `G0`/`G1` line whose first `Z` is followed
by a digit updates `current_z` with `float(group)`; `none` models the
`ValueError` when the captured group is not a decimal. -/
def process_z_move (s : TPState) (l : List Char) : Option TPState :=
  match l with
  | 'G' :: g :: ' ' :: rest =>
      if g = '0' ∨ g = '1' then
        match rest.dropWhile (fun c => decide (c ≠ 'Z')) with
        | 'Z' :: d :: tail =>
            if d.isDigit then
              match pyFloatChars (zGroup d tail) with
              | some (m, e) => some { s with current_z := PyVal.vfloat m e }
              | none => none
            else some s
        | _ => some s
      else some s
  | _ => some s

/-- `TempProcessor.update_idle_temps`: keep the minimum non-zero target. -/
def update_idle_temps (d : PyDict PyVal) (extruder temperature : PyVal) :
    PyDict PyVal :=
  match pyDGet d extruder with
  | none => pyDSet d extruder temperature
  | some old_min_temp =>
      if pyLtB temperature old_min_temp then pyDSet d extruder temperature else d

/-- `TempProcessor.update_printing_temps`: keep the maximum non-zero
target. -/
def update_printing_temps (d : PyDict PyVal) (extruder temperature : PyVal) :
    PyDict PyVal :=
  match pyDGet d extruder with
  | none => pyDSet d extruder temperature
  | some old_max_temp =>
      if pyLtB old_max_temp temperature then pyDSet d extruder temperature else d

/-- `TempProcessor.process_temp_change`: recognize `M104`/`M109`, resolve
the tool (explicit `T` argument, else the active tool), read the mandatory
`S` target (`none` models the `KeyError` when it is missing), update
last-target and reached state, and accumulate idle/printing temperatures for
non-zero targets. -/
def process_temp_change (s : TPState) (l : List Char) : Option TPState :=
  match parse_gcode l with
  | none => none
  | some (op?, args) =>
      match op? with
      | none => some s
      | some op =>
          if op = String.data "M104" ∨ op = String.data "M109" then
            let extruder := (argsGet args 'T').getD s.active_tool
            match argsGet args 'S' with
            | none => none
            | some temperature =>
                let s1 := { s with
                  target_temps := pyDSet s.target_temps extruder temperature,
                  reached_target :=
                    pyDSet s.reached_target extruder (op = String.data "M109") }
                if pyEqB temperature (PyVal.vint 0) then some s1
                else some { s1 with
                  idle_temps := update_idle_temps s1.idle_temps extruder temperature,
                  printing_temps :=
                    update_printing_temps s1.printing_temps extruder temperature }
          else some s

/-- `TempProcessor.process_line`: strip the line, then run the recognizers
in registration order (tool change, Z move, temperature change). -/
def tempProcessLine (s : TPState) (line : List Char) : Option TPState :=
  let t := pyStrip line
  match process_tool_change s t with
  | none => none
  | some s1 =>
      match process_z_move s1 t with
      | none => none
      | some s2 => process_temp_change s2 t

/-- `TempProcessor.process_lines`. -/
def tempProcessLines (s : TPState) (lines : List (List Char)) : Option TPState :=
  match lines with
  | [] => some s
  | l :: rest =>
      match tempProcessLine s l with
      | none => none
      | some s1 => tempProcessLines s1 rest

/-- The temperature-tracker example sequence of C7. -/
def c7Input : List (List Char) :=
  [String.data "T0", String.data "M104 S220", String.data "T1",
   String.data "M109 S110", String.data "M104 T1 S215",
   String.data "M109 T0 S100", String.data "T0", String.data "M109 S0",
   String.data "T1", String.data "M109 S0"]

/-- C7: processing `T0; M104 S220; T1; M109 S110; M104 T1 S215; M109 T0
S100; T0; M109 S0; T1; M109 S0` through the Temperature Tracker yields idle
temperatures `{0: 100, 1: 110}` and printing temperatures
`{0: 220, 1: 215}`; the zero-target commands are excluded from idle/printing
accumulation while still updating the last-target state (final targets are 0
for both tools, marked reached), and the commands without an explicit `T`
argument applied to the currently active tool. -/
theorem c7_temp_tracker_example :
    tempProcessLines tpInit c7Input =
      some { active_tool := PyVal.vint 1,
             current_z := PyVal.vint 0,
             idle_temps := [(PyVal.vint 0, PyVal.vint 100),
                            (PyVal.vint 1, PyVal.vint 110)],
             printing_temps := [(PyVal.vint 0, PyVal.vint 220),
                                (PyVal.vint 1, PyVal.vint 215)],
             target_temps := [(PyVal.vint 0, PyVal.vint 0),
                              (PyVal.vint 1, PyVal.vint 0)],
             reached_target := [(PyVal.vint 0, true), (PyVal.vint 1, true)] } := by
  decide

/-- C10: an `M104`/`M109` line carrying no `S` parameter makes the
temperature recognizer fail (the modelled `KeyError` on the missing key)
instead of ignoring the line. -/
theorem c10_missing_s_fatal (s : TPState) (l : List Char) (op : List Char)
    (args : Args) (hp : parse_gcode l = some (some op, args))
    (hop : op = String.data "M104" ∨ op = String.data "M109")
    (hs : argsGet args 'S' = none) :
    process_temp_change s l = none := by
  unfold process_temp_change
  rw [hp]
  show (if op = String.data "M104" ∨ op = String.data "M109" then
      match argsGet args 'S' with
      | none => none
      | some temperature =>
          (let s1 := { s with
              target_temps := pyDSet s.target_temps ((argsGet args 'T').getD s.active_tool) temperature,
              reached_target := pyDSet s.reached_target ((argsGet args 'T').getD s.active_tool)
                (op = String.data "M109") }
           if pyEqB temperature (PyVal.vint 0) then some s1
           else some { s1 with
              idle_temps := update_idle_temps s1.idle_temps ((argsGet args 'T').getD s.active_tool) temperature,
              printing_temps := update_printing_temps s1.printing_temps
                ((argsGet args 'T').getD s.active_tool) temperature })
    else some s) = none
  rw [if_pos hop, hs]

theorem c10_missing_s_fatal_witness :
    parse_gcode (String.data "M104") = some (some (String.data "M104"), []) ∧
    argsGet ([] : Args) 'S' = none ∧
    process_temp_change tpInit (String.data "M104") = none :=
  ⟨by decide, by decide,
    c10_missing_s_fatal tpInit (String.data "M104") (String.data "M104") []
      (by decide) (Or.inl rfl) (by decide)⟩

/- Redundancy filter (`TempMinimizeProcessor`). -/

/-- State of `TempMinimizeProcessor`: the tracker state plus the emitted
line list. -/
structure TMState where
  tp : TPState
  lines : List (List Char)
deriving DecidableEq, Repr

/-- Initial `TempMinimizeProcessor` state. -/
def tmInit : TMState := ⟨tpInit, []⟩

/-- `TempMinimizeProcessor.process_temp_line`: emit every non-temperature
line; for `M104`/`M109`, drop the line when its target equals the
already-commanded target for its tool (for `M109` additionally requiring
that the target has been reached), using only tracker state from lines
already seen.  `none` models a fatal parse error or `KeyError`. -/
def process_temp_line (s : TMState) (l : List Char) : Option TMState :=
  match parse_gcode l with
  | none => none
  | some (op?, args) =>
      if ¬ (op? = some (String.data "M104") ∨ op? = some (String.data "M109")) then
        some { s with lines := s.lines ++ [l] }
      else
        let extruder := (argsGet args 'T').getD s.tp.active_tool
        match pyDGet s.tp.target_temps extruder with
        | none => some { s with lines := s.lines ++ [l] }
        | some tv =>
            match argsGet args 'S' with
            | none => none
            | some sv =>
                if pyEqB tv sv then
                  if op? = some (String.data "M104") then some s
                  else
                    match pyDGet s.tp.reached_target extruder with
                    | none => none
                    | some r =>
                        if r then some s
                        else some { s with lines := s.lines ++ [l] }
                else some { s with lines := s.lines ++ [l] }

/-- `TempMinimizeProcessor.process_line`: the filtering recognizer runs
first (on state from lines already seen), then the inherited tracker
recognizers update the state. -/
def tmProcessLine (s : TMState) (line : List Char) : Option TMState :=
  let t := pyStrip line
  match process_temp_line s t with
  | none => none
  | some s1 =>
      match process_tool_change s1.tp t with
      | none => none
      | some tp1 =>
          match process_z_move tp1 t with
          | none => none
          | some tp2 =>
              match process_temp_change tp2 t with
              | none => none
              | some tp3 => some { s1 with tp := tp3 }

/-- `TempMinimizeProcessor.process_lines`. -/
def tmProcessLines (s : TMState) (lines : List (List Char)) : Option TMState :=
  match lines with
  | [] => some s
  | l :: rest =>
      match tmProcessLine s l with
      | none => none
      | some s1 => tmProcessLines s1 rest

/-- The redundancy-filter example input of C1. -/
def c1Input : List (List Char) :=
  [String.data "T0", String.data "M104 S100", String.data "M104 T1 S200",
   String.data "T1", String.data "M109 S200", String.data "T0",
   String.data "M109 S100", String.data "T1", String.data "M104 S200",
   String.data "M109 T0 S100"]

/-- The expected filtered output of C1: the input without its two trailing
temperature commands. -/
def c1Expected : List (List Char) :=
  [String.data "T0", String.data "M104 S100", String.data "M104 T1 S200",
   String.data "T1", String.data "M109 S200", String.data "T0",
   String.data "M109 S100", String.data "T1"]

/-- C1: in the single forward pass of the Redundancy Filter, deciding from
state of lines already seen, a non-blocking `M104` is dropped iff its target
equals the target already commanded for its tool, and a blocking `M109` is
dropped iff its target equals the already-commanded target and that target
has been reached; on the example input the output is the input with exactly
the trailing `M104 S200` and `M109 T0 S100` removed, in order. -/
theorem c1_redundancy_filter :
    (∀ (s : TMState) (l : List Char) (args : Args) (sv : PyVal),
      parse_gcode l = some (some (String.data "M104"), args) →
      argsGet args 'S' = some sv →
      process_temp_line s l = some { s with lines := s.lines ++
        (if (match pyDGet s.tp.target_temps
                ((argsGet args 'T').getD s.tp.active_tool) with
             | some tv => pyEqB tv sv
             | none => false) then [] else [l]) }) ∧
    (∀ (s : TMState) (l : List Char) (args : Args) (sv : PyVal) (rv : Bool),
      parse_gcode l = some (some (String.data "M109"), args) →
      argsGet args 'S' = some sv →
      pyDGet s.tp.reached_target ((argsGet args 'T').getD s.tp.active_tool) =
        some rv →
      process_temp_line s l = some { s with lines := s.lines ++
        (if ((match pyDGet s.tp.target_temps
                ((argsGet args 'T').getD s.tp.active_tool) with
              | some tv => pyEqB tv sv
              | none => false) && rv) then [] else [l]) }) ∧
    (tmProcessLines tmInit c1Input).map TMState.lines = some c1Expected := by
  refine ⟨?_, ?_, by decide⟩
  · intro s l args sv hp hs
    unfold process_temp_line
    rw [hp]
    cases htv : pyDGet s.tp.target_temps ((argsGet args 'T').getD s.tp.active_tool) with
    | none => simp [htv]
    | some tv =>
      simp [htv, hs]
      by_cases heq : pyEqB tv sv = true
      · simp [heq]
      · simp [heq]
  · intro s l args sv rv hp hs hr
    unfold process_temp_line
    rw [hp]
    cases htv : pyDGet s.tp.target_temps ((argsGet args 'T').getD s.tp.active_tool) with
    | none => simp [htv]
    | some tv =>
      simp [htv, hs, hr]
      by_cases heq : pyEqB tv sv = true
      · simp [heq]
        by_cases hrv : rv
        · simp [hrv]
        · simp [hrv]
      · simp [heq]

/-- A filter state that has already commanded 200 for tool 1 without
reaching it. -/
def c1WitnessState : TMState :=
  { tp := { tpInit with
            active_tool := PyVal.vint 1,
            target_temps := [(PyVal.vint 1, PyVal.vint 200)],
            reached_target := [(PyVal.vint 1, false)] },
    lines := [] }

theorem c1_redundancy_filter_witness :
    parse_gcode (String.data "M104 S200") =
      some (some (String.data "M104"), [('S', PyVal.vint 200)]) ∧
    process_temp_line c1WitnessState (String.data "M104 S200") =
      some c1WitnessState := by
  constructor
  · decide
  · have h := (c1_redundancy_filter).1 c1WitnessState
      (String.data "M104 S200") [('S', PyVal.vint 200)] (PyVal.vint 200)
      (by decide) (by decide)
    rw [h]
    decide

/- Blocks and temperature injection (`Block`). -/

/-- Block state tags of the segmentation state machine. -/
def S_INIT : Nat := 0
def S_POST_INIT : Nat := 1
def S_PRIME_BLOCK : Nat := 2
def S_PRIME_WIPE_BLOCK : Nat := 3
def S_START_EXTRUDER : Nat := 4
def S_END_EXTRUDER : Nat := 5
def S_PART : Nat := 6
def S_END : Nat := 7

/-- A segmented block: its lines, state tag, opening and finishing heights,
active tool, and the finish-time snapshot of the per-tool last-target and
reached maps. -/
structure Block where
  lines : List (List Char)
  state : Nat
  start_z : PyVal
  finish_z : PyVal
  active_tool : PyVal
  finish_target_temps : PyDict PyVal
  finish_reached_target : PyDict Bool
deriving DecidableEq, Repr

/-- `Block([])` with the constructor defaults. -/
def blockDefault : Block :=
  ⟨[], S_INIT, PyVal.vint 0, PyVal.vint 0, PyVal.vint 0, [], []⟩

/-- `Block.copy_empty_lines`. -/
def copy_empty_lines (b : Block) : Block := { b with lines := [] }

/-- The prefix matcher of the regex `M10[49]` used by
`remove_matching_ops('M10[49]')`. -/
def tempOpMatch (op : List Char) : Bool :=
  (String.data "M104").isPrefixOf op || (String.data "M109").isPrefixOf op

/-- The line loop of `Block.remove_matching_ops('M10[49]')`: keep no-op
lines, drop lines whose operation matches, keep the rest; `none` models a
fatal parse error. -/
def removeMatchingLines (ls : List (List Char)) : Option (List (List Char)) :=
  match ls with
  | [] => some []
  | l :: rest =>
      match parse_gcode l with
      | none => none
      | some (op?, _) =>
          match removeMatchingLines rest with
          | none => none
          | some tail =>
              match op? with
              | none => some (l :: tail)
              | some op => if tempOpMatch op then some tail else some (l :: tail)

/-- The formatted temperature command `'M10%s T%d S%d'` emitted by
`add_temperatures`. -/
def tempCommandLine (wait : Bool) (tool temp : PyVal) : List Char :=
  String.data "M10" ++ [(if wait then '9' else '4')] ++ String.data " T" ++
    intChars (pyTruncToInt tool) ++ String.data " S" ++ intChars (pyTruncToInt temp)

/-- One line step of `Block.add_temperatures`: state is (extruding, emitted
lines, finish-target map, finish-reached map). -/
def addTempStep (active_tool : PyVal) (wait : Bool)
    (printing_temps target_temps : PyDict PyVal) (reached_target : PyDict Bool)
    (st : Bool × List (List Char) × PyDict PyVal × PyDict Bool)
    (line : List Char) :
    Option (Bool × List (List Char) × PyDict PyVal × PyDict Bool) :=
  match parse_gcode line with
  | none => none
  | some (_, args) =>
      if argsHas args 'E' ∧ ¬ st.1 then
        match pyDGet printing_temps active_tool with
        | none => none
        | some pT =>
            let rec1 : Bool :=
              match pyDGet st.2.2.1 active_tool with
              | none => true
              | some cur => ¬ pyEqB cur pT
            let ftt := if rec1 then pyDSet st.2.2.1 active_tool pT else st.2.2.1
            let frt := if rec1 then pyDSet st.2.2.2 active_tool wait else st.2.2.2
            let emit? : Option Bool :=
              match pyDGet target_temps active_tool with
              | none => some true
              | some tv =>
                  if ¬ pyEqB tv pT then some true
                  else
                    match pyDGet reached_target active_tool with
                    | none => none
                    | some r => some (¬ r)
            match emit? with
            | none => none
            | some emit =>
                some (true,
                  st.2.1 ++ (if emit then [tempCommandLine wait active_tool pT] else [])
                    ++ [line],
                  ftt, frt)
      else some (st.1, st.2.1 ++ [line], st.2.2.1, st.2.2.2)

/-- The loop of `Block.add_temperatures` over the block lines. -/
def addTempLoop (active_tool : PyVal) (wait : Bool)
    (printing_temps target_temps : PyDict PyVal) (reached_target : PyDict Bool)
    (st : Bool × List (List Char) × PyDict PyVal × PyDict Bool)
    (ls : List (List Char)) :
    Option (Bool × List (List Char) × PyDict PyVal × PyDict Bool) :=
  match ls with
  | [] => some st
  | l :: rest =>
      match addTempStep active_tool wait printing_temps target_temps
          reached_target st l with
      | none => none
      | some st1 =>
          addTempLoop active_tool wait printing_temps target_temps
            reached_target st1 rest

/-- `Block.add_temperatures(wait, idle_temps, printing_temps, target_temps,
reached_target)`: before the first extrusion-bearing line, conditionally
record the finish snapshot and conditionally emit a temperature command for
the active tool at its printing temperature; the `idle_temps` argument is
unused, exactly as in the source. -/
def add_temperatures (b : Block) (wait : Bool)
    (idle_temps printing_temps target_temps : PyDict PyVal)
    (reached_target : PyDict Bool) : Option Block :=
  match addTempLoop b.active_tool wait printing_temps target_temps
      reached_target (false, [], b.finish_target_temps, b.finish_reached_target)
      b.lines with
  | none => none
  | some st =>
      some { b with
             lines := st.2.1,
             finish_target_temps := st.2.2.1,
             finish_reached_target := st.2.2.2 }

/-- Whether a line's parsed args carry an `E` parameter. -/
def lineHasE (l : List Char) : Bool :=
  match parse_gcode l with
  | some (_, args) => argsHas args 'E'
  | none => false

/-- The recording condition of `add_temperatures` at the first extruding
line: the block's own finish-target for the active tool is absent or differs
from the printing temperature. -/
def c2RecB (b : Block) (pT : PyVal) : Bool :=
  match pyDGet b.finish_target_temps b.active_tool with
  | none => true
  | some cur => ¬ pyEqB cur pT

/-- The emission condition of `add_temperatures`: not already at the printing
temperature with the target reached, per the supplied prior maps. -/
def c2EmitB (b : Block) (target_temps : PyDict PyVal)
    (reached_target : PyDict Bool) (pT : PyVal) : Bool :=
  match pyDGet target_temps b.active_tool with
  | none => true
  | some tv =>
      if ¬ pyEqB tv pT then true
      else ¬ (pyDGet reached_target b.active_tool).getD false

theorem addTempLoop_noE (active_tool : PyVal) (wait : Bool)
    (printing target : PyDict PyVal) (reached : PyDict Bool)
    (ls : List (List Char)) (ex : Bool) (acc : List (List Char))
    (ftt : PyDict PyVal) (frt : PyDict Bool)
    (hls : ∀ l ∈ ls, (parse_gcode l).isSome ∧ lineHasE l = false) :
    addTempLoop active_tool wait printing target reached (ex, acc, ftt, frt) ls =
      some (ex, acc ++ ls, ftt, frt) := by
  induction ls generalizing acc with
  | nil => simp [addTempLoop]
  | cons l rest ih =>
    obtain ⟨hsome, hE⟩ := hls l (List.mem_cons_self _ _)
    obtain ⟨oa, hoa⟩ : ∃ oa, parse_gcode l = some oa := by
      cases hp : parse_gcode l with
      | none => rw [hp] at hsome; simp at hsome
      | some oa => exact ⟨oa, rfl⟩
    unfold lineHasE at hE
    rw [hoa] at hE
    obtain ⟨op?, args⟩ := oa
    unfold addTempLoop addTempStep
    simp only [hoa]
    have hE2 : argsHas args 'E' = false := hE
    rw [if_neg (by
      rintro ⟨h1, -⟩
      rw [hE2] at h1
      exact Bool.false_ne_true h1)]
    have hrest := ih (acc ++ [l]) (fun u hu => hls u (List.mem_cons_of_mem _ hu))
    show addTempLoop active_tool wait printing target reached
      (ex, acc ++ [l], ftt, frt) rest = some (ex, acc ++ l :: rest, ftt, frt)
    rw [hrest]
    simp

theorem addTempLoop_extruding (active_tool : PyVal) (wait : Bool)
    (printing target : PyDict PyVal) (reached : PyDict Bool)
    (ls : List (List Char)) (acc : List (List Char))
    (ftt : PyDict PyVal) (frt : PyDict Bool)
    (hls : ∀ l ∈ ls, (parse_gcode l).isSome) :
    addTempLoop active_tool wait printing target reached (true, acc, ftt, frt) ls =
      some (true, acc ++ ls, ftt, frt) := by
  induction ls generalizing acc with
  | nil => simp [addTempLoop]
  | cons l rest ih =>
    have hsome := hls l (List.mem_cons_self _ _)
    obtain ⟨oa, hoa⟩ : ∃ oa, parse_gcode l = some oa := by
      cases hp : parse_gcode l with
      | none => rw [hp] at hsome; simp at hsome
      | some oa => exact ⟨oa, rfl⟩
    obtain ⟨op?, args⟩ := oa
    unfold addTempLoop addTempStep
    simp only [hoa]
    rw [if_neg (by rintro ⟨-, h2⟩; simp at h2)]
    have hrest := ih (acc ++ [l]) (fun u hu => hls u (List.mem_cons_of_mem _ hu))
    show addTempLoop active_tool wait printing target reached
      (true, acc ++ [l], ftt, frt) rest = some (true, acc ++ l :: rest, ftt, frt)
    rw [hrest]
    simp

theorem addTempLoop_cons (active_tool : PyVal) (wait : Bool)
    (printing target : PyDict PyVal) (reached : PyDict Bool)
    (x : List Char) (rest : List (List Char))
    (st : Bool × List (List Char) × PyDict PyVal × PyDict Bool) :
    addTempLoop active_tool wait printing target reached st (x :: rest) =
      match addTempStep active_tool wait printing target reached st x with
      | none => none
      | some st1 => addTempLoop active_tool wait printing target reached st1 rest := by
  rfl

theorem addTempLoop_append (active_tool : PyVal) (wait : Bool)
    (printing target : PyDict PyVal) (reached : PyDict Bool)
    (xs ys : List (List Char))
    (st : Bool × List (List Char) × PyDict PyVal × PyDict Bool) :
    addTempLoop active_tool wait printing target reached st (xs ++ ys) =
      match addTempLoop active_tool wait printing target reached st xs with
      | none => none
      | some st1 => addTempLoop active_tool wait printing target reached st1 ys := by
  induction xs generalizing st with
  | nil => simp [addTempLoop]
  | cons x rest ih =>
    rw [List.cons_append, addTempLoop_cons, addTempLoop_cons]
    cases hstep : addTempStep active_tool wait printing target reached st x with
    | none => rfl
    | some st1 => exact ih st1

theorem addTempStep_first_e (active_tool : PyVal) (wait : Bool)
    (printing target : PyDict PyVal) (reached : PyDict Bool)
    (acc : List (List Char)) (ftt : PyDict PyVal) (frt : PyDict Bool)
    (eLine : List Char) (pT : PyVal)
    (hP : pyDGet printing active_tool = some pT)
    (hsome : (parse_gcode eLine).isSome) (hE : lineHasE eLine = true)
    (hreach : ∀ tv, pyDGet target active_tool = some tv → pyEqB tv pT = true →
      (pyDGet reached active_tool).isSome) :
    addTempStep active_tool wait printing target reached (false, acc, ftt, frt)
        eLine =
      some (true,
        acc ++ (if (match pyDGet target active_tool with
                    | none => true
                    | some tv =>
                        if ¬ pyEqB tv pT then true
                        else ¬ (pyDGet reached active_tool).getD false) then
            [tempCommandLine wait active_tool pT] else []) ++ [eLine],
        (if (match pyDGet ftt active_tool with
             | none => true
             | some cur => ¬ pyEqB cur pT) then pyDSet ftt active_tool pT else ftt),
        (if (match pyDGet ftt active_tool with
             | none => true
             | some cur => ¬ pyEqB cur pT) then pyDSet frt active_tool wait
         else frt)) := by
  obtain ⟨oa, hoa⟩ : ∃ oa, parse_gcode eLine = some oa := by
    cases hp : parse_gcode eLine with
    | none => rw [hp] at hsome; simp at hsome
    | some oa => exact ⟨oa, rfl⟩
  obtain ⟨op?, args⟩ := oa
  have hE2 : argsHas args 'E' = true := by
    unfold lineHasE at hE
    rw [hoa] at hE
    exact hE
  unfold addTempStep
  simp only [hoa]
  rw [if_pos (by exact ⟨hE2, by simp⟩)]
  rw [hP]
  cases htv : pyDGet target active_tool with
  | none => simp [htv]
  | some tv =>
    by_cases heq : pyEqB tv pT = true
    · obtain ⟨rv, hrv⟩ : ∃ rv, pyDGet reached active_tool = some rv := by
        have := hreach tv htv heq
        cases hr : pyDGet reached active_tool with
        | none => rw [hr] at this; simp at this
        | some rv => exact ⟨rv, rfl⟩
      simp [htv, heq, hrv]
    · simp [htv, heq]

/-- A block whose own finish snapshot already carries the printing
temperature as reached. -/
def c2CexBlock : Block :=
  { blockDefault with
    lines := [String.data "G1 E1"],
    finish_target_temps := [(PyVal.vint 0, PyVal.vint 220)],
    finish_reached_target := [(PyVal.vint 0, true)] }

/-- A printing-temperature map assigning 220 to tool 0. -/
def c2Printing : PyDict PyVal := [(PyVal.vint 0, PyVal.vint 220)]

/-- C2 counterexample: calling `add_temperatures` with `wait = false` on a
block with an extruding line still emits the temperature command (the prior
`target_temps`/`reached_target` maps are empty), yet does NOT record
finish-reached = `wait`: the block's prior snapshot already matches the
printing temperature, so the `reached` flag stays `true` instead of the
claimed unconditional `false`. -/
theorem c2_add_temperatures_counterexample :
    (add_temperatures c2CexBlock false [] c2Printing [] []).map
        (fun b => (b.lines, pyDGet b.finish_reached_target (PyVal.vint 0))) =
      some ([tempCommandLine false (PyVal.vint 0) (PyVal.vint 220),
             String.data "G1 E1"], some true) ∧
    ¬ ((add_temperatures c2CexBlock false [] c2Printing [] []).map
        (fun b => pyDGet b.finish_reached_target (PyVal.vint 0)) =
      some (some false)) := by
  constructor
  · decide
  · decide

/-- C2 (amended): temperature injection inserts the command for the active
tool at its printing temperature immediately before the first E-bearing line
unless the prior `target_temps`/`reached_target` maps already satisfy that
target as reached; it records finish-target = printing and finish-reached =
`wait` only when the block contains an E-bearing line and the block's own
prior finish-target for the tool is absent or differs from the printing
temperature; with no E-bearing line, the block is returned entirely
unchanged. -/
theorem c2_add_temperatures_amended :
    (∀ (b : Block) (wait : Bool) (idle printing target : PyDict PyVal)
       (reached : PyDict Bool) (pT : PyVal) (pre post : List (List Char))
       (eLine : List Char),
      pyDGet printing b.active_tool = some pT →
      b.lines = pre ++ eLine :: post →
      (∀ l ∈ pre, (parse_gcode l).isSome ∧ lineHasE l = false) →
      ((parse_gcode eLine).isSome ∧ lineHasE eLine = true) →
      (∀ l ∈ post, (parse_gcode l).isSome) →
      (∀ tv, pyDGet target b.active_tool = some tv → pyEqB tv pT = true →
        (pyDGet reached b.active_tool).isSome) →
      add_temperatures b wait idle printing target reached =
        some { b with
               lines := pre ++
                 (if c2EmitB b target reached pT then
                    [tempCommandLine wait b.active_tool pT] else []) ++
                 eLine :: post,
               finish_target_temps :=
                 if c2RecB b pT then
                   pyDSet b.finish_target_temps b.active_tool pT
                 else b.finish_target_temps,
               finish_reached_target :=
                 if c2RecB b pT then
                   pyDSet b.finish_reached_target b.active_tool wait
                 else b.finish_reached_target }) ∧
    (∀ (b : Block) (wait : Bool) (idle printing target : PyDict PyVal)
       (reached : PyDict Bool),
      (∀ l ∈ b.lines, (parse_gcode l).isSome ∧ lineHasE l = false) →
      add_temperatures b wait idle printing target reached = some b) := by
  constructor
  · intro b wait idle printing target reached pT pre post eLine hP hsplit hpre
      heline hpost hreach
    have h1 : addTempLoop b.active_tool wait printing target reached
        (false, [], b.finish_target_temps, b.finish_reached_target) pre =
        some (false, pre, b.finish_target_temps, b.finish_reached_target) := by
      rw [addTempLoop_noE _ _ _ _ _ pre false [] _ _ hpre]
      simp
    have h2 : addTempStep b.active_tool wait printing target reached
        (false, pre, b.finish_target_temps, b.finish_reached_target) eLine =
        some (true,
          pre ++ (if c2EmitB b target reached pT then
            [tempCommandLine wait b.active_tool pT] else []) ++ [eLine],
          (if c2RecB b pT then pyDSet b.finish_target_temps b.active_tool pT
           else b.finish_target_temps),
          (if c2RecB b pT then pyDSet b.finish_reached_target b.active_tool wait
           else b.finish_reached_target)) :=
      addTempStep_first_e b.active_tool wait printing target reached pre
        b.finish_target_temps b.finish_reached_target eLine pT hP heline.1
        heline.2 hreach
    have h3 : addTempLoop b.active_tool wait printing target reached
        (true,
          pre ++ (if c2EmitB b target reached pT then
            [tempCommandLine wait b.active_tool pT] else []) ++ [eLine],
          (if c2RecB b pT then pyDSet b.finish_target_temps b.active_tool pT
           else b.finish_target_temps),
          (if c2RecB b pT then pyDSet b.finish_reached_target b.active_tool wait
           else b.finish_reached_target)) post =
        some (true,
          (pre ++ (if c2EmitB b target reached pT then
            [tempCommandLine wait b.active_tool pT] else []) ++ [eLine]) ++ post,
          (if c2RecB b pT then pyDSet b.finish_target_temps b.active_tool pT
           else b.finish_target_temps),
          (if c2RecB b pT then pyDSet b.finish_reached_target b.active_tool wait
           else b.finish_reached_target)) :=
      addTempLoop_extruding _ _ _ _ _ post _ _ _ hpost
    have hloop : addTempLoop b.active_tool wait printing target reached
        (false, [], b.finish_target_temps, b.finish_reached_target)
        (pre ++ eLine :: post) =
        some (true,
          pre ++ (if c2EmitB b target reached pT then
            [tempCommandLine wait b.active_tool pT] else []) ++ eLine :: post,
          (if c2RecB b pT then pyDSet b.finish_target_temps b.active_tool pT
           else b.finish_target_temps),
          (if c2RecB b pT then pyDSet b.finish_reached_target b.active_tool wait
           else b.finish_reached_target)) := by
      rw [addTempLoop_append, h1]
      show addTempLoop b.active_tool wait printing target reached
        (false, pre, b.finish_target_temps, b.finish_reached_target)
        (eLine :: post) = _
      rw [addTempLoop_cons, h2]
      show addTempLoop b.active_tool wait printing target reached
        (true,
          pre ++ (if c2EmitB b target reached pT then
            [tempCommandLine wait b.active_tool pT] else []) ++ [eLine],
          (if c2RecB b pT then pyDSet b.finish_target_temps b.active_tool pT
           else b.finish_target_temps),
          (if c2RecB b pT then pyDSet b.finish_reached_target b.active_tool wait
           else b.finish_reached_target)) post = _
      rw [h3]
      simp
    unfold add_temperatures
    rw [hsplit, hloop]
  · intro b wait idle printing target reached hnoE
    unfold add_temperatures
    rw [addTempLoop_noE _ _ _ _ _ b.lines false [] b.finish_target_temps
      b.finish_reached_target hnoE]
    simp

theorem c2_add_temperatures_amended_witness :
    pyDGet c2Printing (PyVal.vint 0) = some (PyVal.vint 220) ∧
    add_temperatures
      { blockDefault with
        lines := [String.data "G0 X1 Y1", String.data "G1 X2 Y2 E5",
                  String.data "G0 X3 Y10"] }
      true [] c2Printing [] [] =
    some { blockDefault with
           lines := [String.data "G0 X1 Y1",
                     tempCommandLine true (PyVal.vint 0) (PyVal.vint 220),
                     String.data "G1 X2 Y2 E5", String.data "G0 X3 Y10"],
           finish_target_temps := [(PyVal.vint 0, PyVal.vint 220)],
           finish_reached_target := [(PyVal.vint 0, true)] } := by
  constructor
  · decide
  · have h := (c2_add_temperatures_amended).1
      { blockDefault with
        lines := [String.data "G0 X1 Y1", String.data "G1 X2 Y2 E5",
                  String.data "G0 X3 Y10"] }
      true [] c2Printing [] [] (PyVal.vint 220)
      [String.data "G0 X1 Y1"] [String.data "G0 X3 Y10"]
      (String.data "G1 X2 Y2 E5")
      (by decide) (by decide) (by decide) (by decide) (by decide)
      (by intro tv htv; simp [pyDGet] at htv)
    rw [h]
    decide

/- Wipe-trace synthesizer (`PrimeRetraceProcessor`). -/

/-- State of `PrimeRetraceProcessor`: the base tracker state, the
construction parameters, the accumulated output lines, the optional idle
map with its final blocking wait line, and the first-horizontal-move flag. -/
structure PRState where
  tp : TPState
  feed_override : PyVal
  z_override : Option PyVal
  outLines : List (List Char)
  idleInfo : Option (PyDict PyVal × List Char)
  seen_move_line : Bool
deriving DecidableEq, Repr

/-- `PrimeRetraceProcessor.__init__`: the banner line, one non-blocking
idle-temperature set per tool of the idle map (in dict order), and the
blocking wait line for the active tool; `none` models the `KeyError` when
the active tool is missing from a supplied idle map. -/
def prInit (idle_temps : Option (PyDict PyVal)) (feed_override active_tool : PyVal)
    (z_override : Option PyVal) : Option PRState :=
  match idle_temps with
  | none =>
      some ⟨tpInit, feed_override, z_override, [String.data ";WIPE-PRIME-TOWER"],
        none, false⟩
  | some d =>
      match pyDGet d active_tool with
      | none => none
      | some it =>
          some ⟨tpInit, feed_override, z_override,
            [String.data ";WIPE-PRIME-TOWER"] ++
              d.map (fun kv => tempCommandLine false kv.1 kv.2),
            some (d, tempCommandLine true active_tool it), false⟩

/-- `PrimeRetraceProcessor.process_prime_line`: until the first G line with
an X or Y, rewrite at fifteen times the override feed with no height; the
first horizontal move is emitted twice (fast with no height, then at the
base feed with the height override); later lines are rewritten at the base
feed with extrusion and height stripped. -/
def process_prime_line (s : PRState) (l : List Char) : Option PRState :=
  if ¬ s.seen_move_line then
    if l.head? = some 'G' ∧ ('X' ∈ l ∨ 'Y' ∈ l) then
      match rewrite_move l (pyMulNat s.feed_override 15) none with
      | none => none
      | some l1 =>
          match rewrite_move l s.feed_override s.z_override with
          | none => none
          | some l2 =>
              some { s with
                     seen_move_line := true,
                     outLines := s.outLines ++ [l1, l2] }
    else
      match rewrite_move l (pyMulNat s.feed_override 15) none with
      | none => none
      | some l1 => some { s with outLines := s.outLines ++ [l1] }
  else
    match rewrite_move l s.feed_override none with
    | none => none
    | some l1 => some { s with outLines := s.outLines ++ [l1] }

/-- `PrimeRetraceProcessor.process_line`: strip, then run tool-change,
Z-move and the prime recognizer in order. -/
def prProcessLine (s : PRState) (line : List Char) : Option PRState :=
  let t := pyStrip line
  match process_tool_change s.tp t with
  | none => none
  | some tp1 =>
      match process_z_move tp1 t with
      | none => none
      | some tp2 => process_prime_line { s with tp := tp2 } t

/-- `PrimeRetraceProcessor.process_lines`. -/
def prProcessLines (s : PRState) (lines : List (List Char)) : Option PRState :=
  match lines with
  | [] => some s
  | l :: rest =>
      match prProcessLine s l with
      | none => none
      | some s1 => prProcessLines s1 rest

/-- `PrimeRetraceProcessor.get_lines`: drop the last five lines (the
spurious return jogs), then append the blocking idle wait when an idle map
was supplied. -/
def prGetLines (s : PRState) : List (List Char) :=
  match s.idleInfo with
  | some (_, ail) => s.outLines.take (s.outLines.length - 5) ++ [ail]
  | none => s.outLines.take (s.outLines.length - 5)

/-- Construct, feed the captured prime lines, and read the synthesized wipe
trace. -/
def prRun (idle_temps : Option (PyDict PyVal)) (feed_override active_tool : PyVal)
    (z_override : Option PyVal) (lines : List (List Char)) :
    Option (List (List Char)) :=
  match prInit idle_temps feed_override active_tool z_override with
  | none => none
  | some s0 =>
      match prProcessLines s0 lines with
      | none => none
      | some s1 => some (prGetLines s1)

theorem tempCommandLine_eq_make (w : Bool) (t v : PyVal) :
    tempCommandLine w t v =
      make_gcode (if w then String.data "M109" else String.data "M104")
        [('T', PyVal.vint (pyTruncToInt t)), ('S', PyVal.vint (pyTruncToInt v))] := by
  cases w <;>
    simp [tempCommandLine, make_gcode, joinSp, pyValChars, intChars]

theorem parse_tempCommandLine (w : Bool) (t v : PyVal) :
    parse_gcode (tempCommandLine w t v) =
      some (some (if w then String.data "M109" else String.data "M104"),
        [('T', PyVal.vint (pyTruncToInt t)), ('S', PyVal.vint (pyTruncToInt v))]) := by
  rw [tempCommandLine_eq_make]
  apply parse_make_gcode
  · cases w <;> decide
  · cases w <;> decide
  · cases w <;> decide
  · cases w <;> (
      intro c hc
      have hc2 : some 'M' = some c := hc
      rw [← Option.some.inj hc2]
      decide)
  · intro hco
    simp at hco
  · intro kv hkv
    rcases List.mem_cons.mp hkv with h1 | h1
    · rw [h1]
      exact ⟨by simp, by simp⟩
    · rcases List.mem_singleton.mp h1 with rfl
      exact ⟨by simp, by simp⟩
  · simp

theorem overFold_mem (ov : List (Char × PyVal)) (d : Args) (kv : Char × PyVal)
    (h : kv ∈ ov.foldl
      (fun dd kv0 => if argsHas dd kv0.1 then argsSet dd kv0.1 kv0.2 else dd) d) :
    kv ∈ d ∨ ∃ kv0 ∈ ov, kv.1 = kv0.1 := by
  induction ov generalizing d with
  | nil => exact Or.inl h
  | cons kv1 rest ih =>
    rw [List.foldl_cons] at h
    rcases ih _ h with h1 | ⟨kv0, hkv0, hk⟩
    · by_cases hh : argsHas d kv1.1
      · rw [if_pos hh] at h1
        rcases mem_argsSet d kv1.1 kv1.2 kv h1 with h2 | h2
        · exact Or.inl h2
        · exact Or.inr ⟨kv1, List.mem_cons_self _ _, h2⟩
      · rw [if_neg hh] at h1
        exact Or.inl h1
    · exact Or.inr ⟨kv0, List.mem_cons_of_mem _ hkv0, hk⟩

theorem overFold_nodup (ov : List (Char × PyVal)) (d : Args)
    (h : (d.map Prod.fst).Nodup) :
    ((ov.foldl
      (fun dd kv0 => if argsHas dd kv0.1 then argsSet dd kv0.1 kv0.2 else dd)
      d).map Prod.fst).Nodup := by
  induction ov generalizing d with
  | nil => exact h
  | cons kv1 rest ih =>
    rw [List.foldl_cons]
    apply ih
    by_cases hh : argsHas d kv1.1
    · rw [if_pos hh]
      exact argsSet_nodup _ _ _ h
    · rw [if_neg hh]
      exact h

theorem forceFold_mem (fc : List (Char × PyVal)) (d : Args) (kv : Char × PyVal)
    (h : kv ∈ fc.foldl (fun dd kv0 => argsSet dd kv0.1 kv0.2) d) :
    kv ∈ d ∨ ∃ kv0 ∈ fc, kv.1 = kv0.1 := by
  induction fc generalizing d with
  | nil => exact Or.inl h
  | cons kv1 rest ih =>
    rw [List.foldl_cons] at h
    rcases ih _ h with h1 | ⟨kv0, hkv0, hk⟩
    · rcases mem_argsSet d kv1.1 kv1.2 kv h1 with h2 | h2
      · exact Or.inl h2
      · exact Or.inr ⟨kv1, List.mem_cons_self _ _, h2⟩
    · exact Or.inr ⟨kv0, List.mem_cons_of_mem _ hkv0, hk⟩

theorem forceFold_nodup (fc : List (Char × PyVal)) (d : Args)
    (h : (d.map Prod.fst).Nodup) :
    ((fc.foldl (fun dd kv0 => argsSet dd kv0.1 kv0.2) d).map Prod.fst).Nodup := by
  induction fc generalizing d with
  | nil => exact h
  | cons kv1 rest ih =>
    rw [List.foldl_cons]
    exact ih _ (argsSet_nodup _ _ _ h)

theorem delFold_mem (dl : List Char) (d : Args) (kv : Char × PyVal)
    (h : kv ∈ dl.foldl (fun dd k0 => argsRemove dd k0) d) : kv ∈ d := by
  induction dl generalizing d with
  | nil => exact h
  | cons k0 rest ih =>
    rw [List.foldl_cons] at h
    exact (List.filter_sublist _).subset (ih _ h)

theorem argsRemove_nodup (d : Args) (k : Char) (h : (d.map Prod.fst).Nodup) :
    ((argsRemove d k).map Prod.fst).Nodup := by
  exact ((List.filter_sublist _).map Prod.fst).nodup h

theorem delFold_nodup (dl : List Char) (d : Args) (h : (d.map Prod.fst).Nodup) :
    ((dl.foldl (fun dd k0 => argsRemove dd k0) d).map Prod.fst).Nodup := by
  induction dl generalizing d with
  | nil => exact h
  | cons k0 rest ih =>
    rw [List.foldl_cons]
    exact ih _ (argsRemove_nodup _ _ h)

theorem editArgs_mem (args : Args) (ov fc : List (Char × PyVal)) (dl : List Char)
    (kv : Char × PyVal) (h : kv ∈ editArgs args ov fc dl) :
    kv ∈ args ∨ (∃ kv0 ∈ ov, kv.1 = kv0.1) ∨ (∃ kv0 ∈ fc, kv.1 = kv0.1) := by
  unfold editArgs at h
  have h1 := delFold_mem _ _ _ h
  rcases forceFold_mem _ _ _ h1 with h2 | h2
  · rcases overFold_mem _ _ _ h2 with h3 | h3
    · exact Or.inl h3
    · exact Or.inr (Or.inl h3)
  · exact Or.inr (Or.inr h2)

theorem editArgs_nodup (args : Args) (ov fc : List (Char × PyVal)) (dl : List Char)
    (h : (args.map Prod.fst).Nodup) :
    ((editArgs args ov fc dl).map Prod.fst).Nodup := by
  unfold editArgs
  exact delFold_nodup _ _ (forceFold_nodup _ _ (overFold_nodup _ _ h))

/-- The motion-safety property of synthesized wipe lines: any `G0`/`G1` line
carries no `E`, and carries a `Z` only equal to the height override. -/
def c3MotionSafe (z : Option PyVal) (l : List Char) : Prop :=
  ∀ op args, parse_gcode l = some (some op, args) → moveMatchB op = true →
    argsGet args 'E' = none ∧ (∀ zv, argsGet args 'Z' = some zv → z = some zv)

theorem moveMatchB_eq (op : List Char) (h : moveMatchB op = true) :
    op = String.data "G0" ∨ op = String.data "G1" := by
  unfold moveMatchB at h
  rw [Bool.or_eq_true] at h
  rcases h with h1 | h1 <;> rw [decide_eq_true_eq] at h1
  · exact Or.inl h1
  · exact Or.inr h1

theorem rewrite_matched_parse (x : List Char) (op0 : List Char) (args0 : Args)
    (ov fc : List (Char × PyVal)) (dl : List Char)
    (hx : parse_gcode x = some (some op0, args0))
    (hkeysov : ∀ kv ∈ ov, kv.1 ≠ ' ' ∧ kv.1 ≠ ';')
    (hkeysfc : ∀ kv ∈ fc, kv.1 ≠ ' ' ∧ kv.1 ≠ ';')
    (hlast : editArgs args0 ov fc dl = [] →
      ∀ c, op0.getLast? = some c → isWsChar c = false) :
    parse_gcode (make_gcode op0 (editArgs args0 ov fc dl)) =
      some (some op0, editArgs args0 ov fc dl) := by
  obtain ⟨h1, h2, h3, h4, h5, h6, h7⟩ := parse_gcode_shape x op0 args0 hx
  apply parse_make_gcode op0 _ h1 h2 h3 h4 hlast
  · intro kv hkv
    rcases editArgs_mem args0 ov fc dl kv hkv with hm | hm | hm
    · exact h6 kv hm
    · obtain ⟨kv0, hkv0, hk⟩ := hm
      rw [hk]
      exact hkeysov kv0 hkv0
    · obtain ⟨kv0, hkv0, hk⟩ := hm
      rw [hk]
      exact hkeysfc kv0 hkv0
  · exact editArgs_nodup args0 ov fc dl h7

theorem rewrite_move_safe_none (x : List Char) (f : PyVal) (l : List Char)
    (h : rewrite_move x f none = some l) (z : Option PyVal) : c3MotionSafe z l := by
  intro op args hp hmove
  unfold rewrite_move rewrite at h
  cases hx : parse_gcode x with
  | none =>
    rw [hx] at h
    simp at h
  | some oa =>
    obtain ⟨op0?, args0⟩ := oa
    rw [hx] at h
    cases op0? with
    | none =>
      have h' : some x = some l := h
      rw [Option.some.injEq] at h'
      subst h'
      rw [hx] at hp
      simp at hp
    | some op0 =>
      have h' : (if moveMatchB op0 then
          some (make_gcode op0 (editArgs args0 [('F', f)] [] ['E', 'Z']))
          else some x) = some l := h
      by_cases hm : moveMatchB op0 = true
      · rw [if_pos hm, Option.some.injEq] at h'
        subst h'
        have hre := rewrite_matched_parse x op0 args0 [('F', f)] [] ['E', 'Z']
          (by rw [hx])
          (by
            intro kv hkv
            rcases List.mem_singleton.mp hkv with rfl
            exact ⟨by simp, by simp⟩)
          (by
            intro kv hkv
            simp at hkv)
          (by
            intro _hnil c hc
            rcases moveMatchB_eq op0 hm with h9 | h9 <;> rw [h9] at hc <;> (
              have hc2 := Option.some.inj hc
              rw [← hc2]
              decide))
        rw [hre] at hp
        simp only [Option.some.injEq, Prod.mk.injEq] at hp
        obtain ⟨hp1, hp2⟩ := hp
        subst hp2
        constructor
        · rw [editArgs_get _ _ _ _ _ (by simp) (by simp)]
          rw [if_pos (by simp)]
        · intro zv hzv
          rw [editArgs_get _ _ _ _ _ (by simp) (by simp)] at hzv
          rw [if_pos (by simp)] at hzv
          simp at hzv
      · rw [if_neg hm, Option.some.injEq] at h'
        subst h'
        rw [hx] at hp
        simp only [Option.some.injEq, Prod.mk.injEq] at hp
        obtain ⟨hp1, -⟩ := hp
        rw [← hp1] at hmove
        exact absurd hmove hm

theorem rewrite_move_safe_force (x : List Char) (f zf : PyVal) (l : List Char)
    (h : rewrite_move x f (some zf) = some l) : c3MotionSafe (some zf) l := by
  intro op args hp hmove
  unfold rewrite_move rewrite at h
  cases hx : parse_gcode x with
  | none =>
    rw [hx] at h
    simp at h
  | some oa =>
    obtain ⟨op0?, args0⟩ := oa
    rw [hx] at h
    cases op0? with
    | none =>
      have h' : some x = some l := h
      rw [Option.some.injEq] at h'
      subst h'
      rw [hx] at hp
      simp at hp
    | some op0 =>
      have h' : (if moveMatchB op0 then
          some (make_gcode op0 (editArgs args0 [('F', f)] [('Z', zf)] ['E']))
          else some x) = some l := h
      by_cases hm : moveMatchB op0 = true
      · rw [if_pos hm, Option.some.injEq] at h'
        subst h'
        have hre := rewrite_matched_parse x op0 args0 [('F', f)] [('Z', zf)] ['E']
          (by rw [hx])
          (by
            intro kv hkv
            rcases List.mem_singleton.mp hkv with rfl
            exact ⟨by simp, by simp⟩)
          (by
            intro kv hkv
            rcases List.mem_singleton.mp hkv with rfl
            exact ⟨by simp, by simp⟩)
          (by
            intro _hnil c hc
            rcases moveMatchB_eq op0 hm with h9 | h9 <;> rw [h9] at hc <;> (
              have hc2 := Option.some.inj hc
              rw [← hc2]
              decide))
        rw [hre] at hp
        simp only [Option.some.injEq, Prod.mk.injEq] at hp
        obtain ⟨hp1, hp2⟩ := hp
        subst hp2
        constructor
        · rw [editArgs_get _ _ _ _ _ (by simp) (by simp)]
          rw [if_pos (by simp)]
        · intro zv hzv
          rw [editArgs_get _ _ _ _ _ (by simp) (by simp)] at hzv
          rw [if_neg (by simp)] at hzv
          have : argsGet [('Z', zf)] 'Z' = some zf := by
            unfold argsGet
            rw [if_pos rfl]
          rw [this] at hzv
          rw [Option.some.injEq] at hzv
          rw [hzv]
      · rw [if_neg hm, Option.some.injEq] at h'
        subst h'
        rw [hx] at hp
        simp only [Option.some.injEq, Prod.mk.injEq] at hp
        obtain ⟨hp1, -⟩ := hp
        rw [← hp1] at hmove
        exact absurd hmove hm

theorem rewrite_move_safe (x : List Char) (f : PyVal) (z0 : Option PyVal)
    (l : List Char) (h : rewrite_move x f z0 = some l) (z : Option PyVal)
    (hz : ∀ zv, z0 = some zv → z = some zv) : c3MotionSafe z l := by
  cases z0 with
  | none => exact rewrite_move_safe_none x f l h z
  | some zf =>
    rw [hz zf rfl]
    exact rewrite_move_safe_force x f zf l h

theorem tempCommandLine_motion_safe (z : Option PyVal) (w : Bool) (t v : PyVal) :
    c3MotionSafe z (tempCommandLine w t v) := by
  intro op args hp hmove
  rw [parse_tempCommandLine] at hp
  simp only [Option.some.injEq, Prod.mk.injEq] at hp
  obtain ⟨hp1, -⟩ := hp
  rw [← hp1] at hmove
  cases w
  · exact absurd hmove (by decide)
  · exact absurd hmove (by decide)

theorem banner_motion_safe (z : Option PyVal) :
    c3MotionSafe z (String.data ";WIPE-PRIME-TOWER") := by
  intro op args hp _hmove
  have hp' : (some (none, []) : Option (Option (List Char) × Args)) =
      some (some op, args) := hp
  simp at hp'

theorem prInit_safe (idle : Option (PyDict PyVal)) (f t : PyVal) (z : Option PyVal)
    (s : PRState) (h : prInit idle f t z = some s) :
    s.z_override = z ∧ (∀ x ∈ s.outLines, c3MotionSafe z x) ∧
      ∀ p, s.idleInfo = some p → c3MotionSafe z p.2 := by
  cases idle with
  | none =>
    have h' : (⟨tpInit, f, z, [String.data ";WIPE-PRIME-TOWER"], none, false⟩ :
        PRState) = s := Option.some.inj h
    rw [← h']
    refine ⟨rfl, ?_, ?_⟩
    · intro x hx
      rcases List.mem_singleton.mp hx with rfl
      exact banner_motion_safe z
    · intro p hp
      simp at hp
  | some d =>
    have h1 : (match pyDGet d t with
        | none => none
        | some it =>
            some (⟨tpInit, f, z,
              [String.data ";WIPE-PRIME-TOWER"] ++
                d.map (fun kv => tempCommandLine false kv.1 kv.2),
              some (d, tempCommandLine true t it), false⟩ : PRState)) = some s := h
    cases hg : pyDGet d t with
    | none =>
      rw [hg] at h1
      exact absurd h1 (by simp)
    | some it =>
      rw [hg] at h1
      have h' := Option.some.inj h1
      rw [← h']
      refine ⟨rfl, ?_, ?_⟩
      · intro x hx
        rcases List.mem_append.mp hx with hx1 | hx1
        · rcases List.mem_singleton.mp hx1 with rfl
          exact banner_motion_safe z
        · obtain ⟨kv, hkv, hxeq⟩ := List.mem_map.mp hx1
          rw [← hxeq]
          exact tempCommandLine_motion_safe z false kv.1 kv.2
      · intro p hp
        have hp' := Option.some.inj hp
        rw [← hp']
        exact tempCommandLine_motion_safe z true t it

theorem process_prime_line_safe (s s' : PRState) (l : List Char)
    (h : process_prime_line s l = some s') :
    s'.z_override = s.z_override ∧ s'.idleInfo = s.idleInfo ∧
      ∀ x ∈ s'.outLines, x ∈ s.outLines ∨ c3MotionSafe s.z_override x := by
  unfold process_prime_line at h
  by_cases hseen : s.seen_move_line = true
  · rw [if_neg (not_not_intro hseen)] at h
    cases hr : rewrite_move l s.feed_override none with
    | none =>
      rw [hr] at h
      exact absurd h (by simp)
    | some l1 =>
      rw [hr] at h
      have h' := Option.some.inj h
      rw [← h']
      refine ⟨rfl, rfl, ?_⟩
      intro x hx
      rcases List.mem_append.mp hx with hx1 | hx1
      · exact Or.inl hx1
      · rcases List.mem_singleton.mp hx1 with rfl
        exact Or.inr (rewrite_move_safe_none l s.feed_override x hr s.z_override)
  · rw [if_pos hseen] at h
    by_cases hxy : l.head? = some 'G' ∧ ('X' ∈ l ∨ 'Y' ∈ l)
    · rw [if_pos hxy] at h
      cases hr1 : rewrite_move l (pyMulNat s.feed_override 15) none with
      | none =>
        rw [hr1] at h
        exact absurd h (by simp)
      | some l1 =>
        rw [hr1] at h
        cases hr2 : rewrite_move l s.feed_override s.z_override with
        | none =>
          rw [hr2] at h
          exact absurd h (by simp)
        | some l2 =>
          rw [hr2] at h
          have h' := Option.some.inj h
          rw [← h']
          refine ⟨rfl, rfl, ?_⟩
          intro x hx
          rcases List.mem_append.mp hx with hx1 | hx1
          · exact Or.inl hx1
          · rcases List.mem_cons.mp hx1 with hx2 | hx2
            · rw [hx2]
              exact Or.inr
                (rewrite_move_safe_none l (pyMulNat s.feed_override 15) l1 hr1
                  s.z_override)
            · rcases List.mem_singleton.mp hx2 with rfl
              exact Or.inr
                (rewrite_move_safe l s.feed_override s.z_override x hr2
                  s.z_override (fun _ hzz => hzz))
    · rw [if_neg hxy] at h
      cases hr : rewrite_move l (pyMulNat s.feed_override 15) none with
      | none =>
        rw [hr] at h
        exact absurd h (by simp)
      | some l1 =>
        rw [hr] at h
        have h' := Option.some.inj h
        rw [← h']
        refine ⟨rfl, rfl, ?_⟩
        intro x hx
        rcases List.mem_append.mp hx with hx1 | hx1
        · exact Or.inl hx1
        · rcases List.mem_singleton.mp hx1 with rfl
          exact Or.inr
            (rewrite_move_safe_none l (pyMulNat s.feed_override 15) x hr
              s.z_override)

theorem prProcessLine_safe (s s' : PRState) (line : List Char)
    (h : prProcessLine s line = some s') :
    s'.z_override = s.z_override ∧ s'.idleInfo = s.idleInfo ∧
      ∀ x ∈ s'.outLines, x ∈ s.outLines ∨ c3MotionSafe s.z_override x := by
  have h1 : (match process_tool_change s.tp (pyStrip line) with
      | none => none
      | some tp1 =>
          match process_z_move tp1 (pyStrip line) with
          | none => none
          | some tp2 => process_prime_line { s with tp := tp2 } (pyStrip line)) =
      some s' := h
  cases hc : process_tool_change s.tp (pyStrip line) with
  | none =>
    rw [hc] at h1
    exact absurd h1 (by simp)
  | some tp1 =>
    rw [hc] at h1
    have h2 : (match process_z_move tp1 (pyStrip line) with
        | none => none
        | some tp2 =>
            process_prime_line { s with tp := tp2 } (pyStrip line)) =
        some s' := h1
    cases hz : process_z_move tp1 (pyStrip line) with
    | none =>
      rw [hz] at h2
      exact absurd h2 (by simp)
    | some tp2 =>
      rw [hz] at h2
      exact process_prime_line_safe { s with tp := tp2 } s' (pyStrip line) h2

theorem prProcessLines_safe (lines : List (List Char)) (s s' : PRState)
    (h : prProcessLines s lines = some s') :
    s'.z_override = s.z_override ∧ s'.idleInfo = s.idleInfo ∧
      ∀ x ∈ s'.outLines, x ∈ s.outLines ∨ c3MotionSafe s.z_override x := by
  induction lines generalizing s with
  | nil =>
    have h' := Option.some.inj h
    rw [← h']
    exact ⟨rfl, rfl, fun x hx => Or.inl hx⟩
  | cons l rest ih =>
    have h1 : (match prProcessLine s l with
        | none => none
        | some s1 => prProcessLines s1 rest) = some s' := h
    cases hp : prProcessLine s l with
    | none =>
      rw [hp] at h1
      exact absurd h1 (by simp)
    | some s1 =>
      rw [hp] at h1
      obtain ⟨ha, hb, hc⟩ := ih s1 h1
      obtain ⟨hd, he, hf⟩ := prProcessLine_safe s s1 l hp
      refine ⟨ha.trans hd, hb.trans he, ?_⟩
      intro x hx
      rcases hc x hx with hx1 | hx1
      · rcases hf x hx1 with hx2 | hx2
        · exact Or.inl hx2
        · exact Or.inr hx2
      · rw [hd] at hx1
        exact Or.inr hx1

/-- C3 counterexample input: a non-move line carrying `E5000`, then five
filler comment lines that the trailing five-line cut swallows. -/
def c3CexInput : List (List Char) :=
  [String.data "M204 E5000", String.data ";c1", String.data ";c2",
   String.data ";c3", String.data ";c4", String.data ";c5"]

/-- Synthesized wipe trace for `c3CexInput`. -/
def c3CexOut : List (List Char) :=
  [String.data ";WIPE-PRIME-TOWER", String.data "M104 T0 S100",
   String.data "M204 E5000", String.data "M109 T0 S100"]

/-- C3 counterexample: the wipe-trace synthesizer passes the non-move line
`M204 E5000` through unchanged, so the synthesized output does carry an
extrusion parameter; only `G0`/`G1` lines are rewritten. -/
theorem c3_wipe_motion_counterexample :
    prRun (some [(PyVal.vint 0, PyVal.vint 100)]) (PyVal.vint 400)
        (PyVal.vint 0) none c3CexInput = some c3CexOut ∧
      String.data "M204 E5000" ∈ c3CexOut ∧
      parse_gcode (String.data "M204 E5000") =
        some (some (String.data "M204"), [('E', PyVal.vint 5000)]) := by
  refine ⟨by decide, by decide, by decide⟩

/-- C3 (amended): on every successful replay of a captured prime-block line
sequence by the wipe-trace synthesizer (`PrimeRetraceProcessor`), every
`G0`/`G1` move line of the synthesized output carries no extrusion (`E`)
parameter, and carries a height (`Z`) parameter only when it equals the
forced height override (so with no override no move line carries any
height, and input heights never survive); non-move lines are passed through
verbatim and are not covered. -/
theorem c3_wipe_motion_amended (idle_temps : Option (PyDict PyVal))
    (feed_override active_tool : PyVal) (z_override : Option PyVal)
    (lines out : List (List Char))
    (h : prRun idle_temps feed_override active_tool z_override lines = some out) :
    ∀ l ∈ out, c3MotionSafe z_override l := by
  have h1 : (match prInit idle_temps feed_override active_tool z_override with
      | none => none
      | some s0 =>
          match prProcessLines s0 lines with
          | none => none
          | some s1 => some (prGetLines s1)) = some out := h
  cases h0 : prInit idle_temps feed_override active_tool z_override with
  | none =>
    rw [h0] at h1
    exact absurd h1 (by simp)
  | some s0 =>
    rw [h0] at h1
    have h2 : (match prProcessLines s0 lines with
        | none => none
        | some s1 => some (prGetLines s1)) = some out := h1
    cases hN : prProcessLines s0 lines with
    | none =>
      rw [hN] at h2
      exact absurd h2 (by simp)
    | some s1 =>
      rw [hN] at h2
      have h' := Option.some.inj h2
      obtain ⟨hz0, hout0, hidle0⟩ :=
        prInit_safe idle_temps feed_override active_tool z_override s0 h0
      obtain ⟨hz1, hidle1, hout1⟩ := prProcessLines_safe lines s0 s1 hN
      intro l hl
      rw [← h'] at hl
      unfold prGetLines at hl
      cases hii : s1.idleInfo with
      | none =>
        rw [hii] at hl
        have hmem : l ∈ s1.outLines := List.take_subset _ _ hl
        rcases hout1 l hmem with hm | hm
        · exact hout0 l hm
        · rw [hz0] at hm
          exact hm
      | some p =>
        obtain ⟨d0, ail⟩ := p
        rw [hii] at hl
        have hl2 : l ∈ s1.outLines.take (s1.outLines.length - 5) ++ [ail] := hl
        rcases List.mem_append.mp hl2 with hl3 | hl3
        · have hmem : l ∈ s1.outLines := List.take_subset _ _ hl3
          rcases hout1 l hmem with hm | hm
          · exact hout0 l hm
          · rw [hz0] at hm
            exact hm
        · rcases List.mem_singleton.mp hl3 with rfl
          have hi0 : s0.idleInfo = some (d0, l) := by
            rw [← hidle1, hii]
          exact hidle0 (d0, l) hi0

/-- C3 witness input: a first horizontal move carrying input `Z9` and `E5`,
then five filler comments. -/
def c3WitInput : List (List Char) :=
  [String.data "G1 X1 Z9 E5", String.data ";c1", String.data ";c2",
   String.data ";c3", String.data ";c4", String.data ";c5"]

/-- Synthesized wipe trace for `c3WitInput` with height override `1`. -/
def c3WitOut : List (List Char) :=
  [String.data ";WIPE-PRIME-TOWER", String.data "M104 T0 S100",
   String.data "G1 X1", String.data "G1 X1 Z1", String.data "M109 T0 S100"]

theorem c3_wipe_motion_amended_witness :
    argsGet [('X', PyVal.vint 1), ('Z', PyVal.vint 1)] 'E' = none ∧
      (some (PyVal.vint 1) : Option PyVal) = some (PyVal.vint 1) := by
  have h := c3_wipe_motion_amended (some [(PyVal.vint 0, PyVal.vint 100)])
    (PyVal.vint 400) (PyVal.vint 0) (some (PyVal.vint 1)) c3WitInput c3WitOut
    (by decide) (String.data "G1 X1 Z1") (by decide)
  have h2 := h (String.data "G1") [('X', PyVal.vint 1), ('Z', PyVal.vint 1)]
    (by decide) (by decide)
  exact ⟨h2.1, h2.2 (PyVal.vint 1) (by decide)⟩

/- Block segmenter (`BlockProcessor`). -/

/-- The compiled boundary state table: every source pattern is a
literal-prefix alternation under `re.match`, so each compiled regex is
modeled by its list of accepting literal prefixes. -/
def compiled_re_state_table : List (List (List Char) × Nat) :=
  [([String.data ";END-INIT"], S_POST_INIT),
   ([String.data ";TYPE:WALL", String.data ";TYPE:SKIN",
     String.data ";TYPE:FILL"], S_PART),
   ([String.data ";TYPE:PRIME-TOWER"], S_PRIME_BLOCK),
   ([String.data "; EXTRUDER START HOME"], S_START_EXTRUDER),
   ([String.data "; EXTRUDER END HOME"], S_END_EXTRUDER)]

/-- `re.match` against one table entry: does any accepting prefix start the
line? -/
def reMatchB (pats : List (List Char)) (l : List Char) : Bool :=
  pats.any fun p => p.isPrefixOf l

/-- State of `BlockProcessor`: the inherited temperature tracker, the
committed blocks, and the current open block. -/
structure BPState where
  tp : TPState
  blocks : List Block
  current_block : Block
deriving DecidableEq, Repr

/-- `BlockProcessor.__init__`. -/
def bpInit : BPState := ⟨tpInit, [], blockDefault⟩

/-- One table entry of the `process_blocks` loop: on a boundary match, seal
the current block (snapshotting the tracker's target/reached maps into its
finish maps) and open a fresh block at the current height and tool. -/
def bpSealStep (line : List Char) (st : BPState) (p : List (List Char) × Nat) :
    BPState :=
  if reMatchB p.1 line then
    { st with
      blocks := st.blocks ++
        [{ st.current_block with
           finish_target_temps := st.tp.target_temps,
           finish_reached_target := st.tp.reached_target }],
      current_block :=
        ⟨[], p.2, st.tp.current_z, PyVal.vint 0, st.tp.active_tool, [], []⟩ }
  else st

/-- `BlockProcessor.process_blocks`: run every table entry in order, then
update the current block's finish height and append the line to it. -/
def process_blocks (s : BPState) (line : List Char) : BPState :=
  let s1 := compiled_re_state_table.foldl (bpSealStep line) s
  { s1 with
    current_block :=
      { s1.current_block with
        finish_z := s1.tp.current_z,
        lines := s1.current_block.lines ++ [line] } }

/-- `BlockProcessor.process_line`: strip, then tool-change, Z-move,
temperature tracking and block segmentation in order. -/
def bpProcessLine (s : BPState) (line : List Char) : Option BPState :=
  let t := pyStrip line
  match process_tool_change s.tp t with
  | none => none
  | some tp1 =>
      match process_z_move tp1 t with
      | none => none
      | some tp2 =>
          match process_temp_change tp2 t with
          | none => none
          | some tp3 => some (process_blocks { s with tp := tp3 } t)

/-- `BlockProcessor.process_lines`. -/
def bpProcessLines (s : BPState) (lines : List (List Char)) : Option BPState :=
  match lines with
  | [] => some s
  | l :: rest =>
      match bpProcessLine s l with
      | none => none
      | some s1 => bpProcessLines s1 rest

/-- `BlockProcessor.get_blocks`. -/
def get_blocks (s : BPState) : List Block :=
  s.blocks ++ [s.current_block]

/-- Concatenation of the line lists of all blocks seen so far. -/
def bpJoin (s : BPState) : List (List Char) :=
  ((get_blocks s).map Block.lines).flatten

theorem bpSealStep_join (line : List Char) (st : BPState)
    (p : List (List Char) × Nat) :
    ((bpSealStep line st p).blocks.map Block.lines).flatten ++
        (bpSealStep line st p).current_block.lines =
      (st.blocks.map Block.lines).flatten ++ st.current_block.lines := by
  unfold bpSealStep
  by_cases hm : reMatchB p.1 line = true
  · rw [if_pos hm]
    simp
  · rw [if_neg hm]

theorem bpSealFold_join (tbl : List (List (List Char) × Nat))
    (line : List Char) (st : BPState) :
    ((tbl.foldl (bpSealStep line) st).blocks.map Block.lines).flatten ++
        (tbl.foldl (bpSealStep line) st).current_block.lines =
      (st.blocks.map Block.lines).flatten ++ st.current_block.lines := by
  induction tbl generalizing st with
  | nil => rfl
  | cons p rest ih =>
    rw [List.foldl_cons]
    rw [ih (bpSealStep line st p)]
    exact bpSealStep_join line st p

theorem process_blocks_join (s : BPState) (line : List Char) :
    bpJoin (process_blocks s line) = bpJoin s ++ [line] := by
  unfold bpJoin get_blocks process_blocks
  simp only [List.map_append, List.flatten_append, List.map_cons, List.map_nil,
    List.flatten_cons, List.flatten_nil, List.append_nil]
  rw [List.append_assoc] at *
  rw [← List.append_assoc
    (((compiled_re_state_table.foldl (bpSealStep line) s).blocks.map
      Block.lines).flatten)]
  rw [bpSealFold_join compiled_re_state_table line s]
  simp

theorem bpProcessLine_join (s s' : BPState) (l : List Char)
    (h : bpProcessLine s l = some s') : bpJoin s' = bpJoin s ++ [pyStrip l] := by
  have h1 : (match process_tool_change s.tp (pyStrip l) with
      | none => none
      | some tp1 =>
          match process_z_move tp1 (pyStrip l) with
          | none => none
          | some tp2 =>
              match process_temp_change tp2 (pyStrip l) with
              | none => none
              | some tp3 =>
                  some (process_blocks { s with tp := tp3 } (pyStrip l))) =
      some s' := h
  cases hc : process_tool_change s.tp (pyStrip l) with
  | none =>
    rw [hc] at h1
    exact absurd h1 (by simp)
  | some tp1 =>
    rw [hc] at h1
    have h2 : (match process_z_move tp1 (pyStrip l) with
        | none => none
        | some tp2 =>
            match process_temp_change tp2 (pyStrip l) with
            | none => none
            | some tp3 =>
                some (process_blocks { s with tp := tp3 } (pyStrip l))) =
        some s' := h1
    cases hz : process_z_move tp1 (pyStrip l) with
    | none =>
      rw [hz] at h2
      exact absurd h2 (by simp)
    | some tp2 =>
      rw [hz] at h2
      have h3 : (match process_temp_change tp2 (pyStrip l) with
          | none => none
          | some tp3 =>
              some (process_blocks { s with tp := tp3 } (pyStrip l))) =
          some s' := h2
      cases ht : process_temp_change tp2 (pyStrip l) with
      | none =>
        rw [ht] at h3
        exact absurd h3 (by simp)
      | some tp3 =>
        rw [ht] at h3
        have h4 := Option.some.inj h3
        rw [← h4]
        rw [process_blocks_join { s with tp := tp3 } (pyStrip l)]
        rfl

theorem bpProcessLines_join (lines : List (List Char)) (s s' : BPState)
    (h : bpProcessLines s lines = some s') :
    bpJoin s' = bpJoin s ++ lines.map pyStrip := by
  induction lines generalizing s with
  | nil =>
    have h' := Option.some.inj h
    rw [← h']
    simp
  | cons l rest ih =>
    have h1 : (match bpProcessLine s l with
        | none => none
        | some s1 => bpProcessLines s1 rest) = some s' := h
    cases hp : bpProcessLine s l with
    | none =>
      rw [hp] at h1
      exact absurd h1 (by simp)
    | some s1 =>
      rw [hp] at h1
      rw [ih s1 h1, bpProcessLine_join s s1 l hp]
      simp

/-- C4 counterexample: processed lines are stripped before being recorded
in the current block, so an input line with trailing whitespace is not
reproduced byte-for-byte by the concatenation of the returned blocks. -/
theorem c4_block_partition_counterexample :
    (bpProcessLines bpInit [String.data "G0 "]).map
        (fun s => ((get_blocks s).map Block.lines).flatten) =
      some [String.data "G0"] ∧
      [String.data "G0"] ≠ [String.data "G0 "] := by
  refine ⟨by decide, by decide⟩

/-- C4 (amended): on every successful run of the block segmenter
(`BlockProcessor`), concatenating the line lists of all blocks returned by
`get_blocks`, in order, reproduces the whitespace-stripped input line
sequence (each line as recorded after `line.strip()`), with no line added,
dropped or reordered. -/
theorem c4_block_partition_amended (lines : List (List Char)) (s' : BPState)
    (h : bpProcessLines bpInit lines = some s') :
    ((get_blocks s').map Block.lines).flatten = lines.map pyStrip := by
  have h2 := bpProcessLines_join lines bpInit s' h
  rw [show bpJoin bpInit = [] from rfl, List.nil_append] at h2
  exact h2

theorem c4_block_partition_amended_witness :
    ((get_blocks ⟨tpInit, [],
        ⟨[String.data "T0", String.data "G1 X1"], S_INIT, PyVal.vint 0,
          PyVal.vint 0, PyVal.vint 0, [], []⟩⟩).map Block.lines).flatten =
      [String.data "T0", String.data "G1 X1"].map pyStrip :=
  c4_block_partition_amended [String.data "T0", String.data "G1 X1"]
    ⟨tpInit, [],
      ⟨[String.data "T0", String.data "G1 X1"], S_INIT, PyVal.vint 0,
        PyVal.vint 0, PyVal.vint 0, [], []⟩⟩ (by decide)

/- Prime-block pre-processor (`PrimeProcessor`). -/

/-- State of `PrimeProcessor`: the inherited tracker, the construction
parameters, the fixed preamble and the collected block lines. -/
structure PPState where
  tp : TPState
  pre_ramp : Bool
  printing_temps : PyDict PyVal
  active_tool : PyVal
  feed_override : PyVal
  pre_lines : List (List Char)
  lines : List (List Char)
deriving DecidableEq, Repr

/-- `PrimeProcessor.__init__`: the banner plus the non-blocking printing
temperature command for the active tool; `none` models the `KeyError` when
the active tool has no printing temperature. -/
def ppInit (active_tool : PyVal) (pre_ramp : Bool)
    (printing_temps : PyDict PyVal) (feed_override : PyVal) : Option PPState :=
  match pyDGet printing_temps active_tool with
  | none => none
  | some pt =>
      some ⟨tpInit, pre_ramp, printing_temps, active_tool, feed_override,
        [String.data ";PRE-PRIME-TOWER", tempCommandLine false active_tool pt],
        []⟩

/-- `PrimeProcessor.process_line`: strip, run the tracker recognizers, then
collect the stripped line. -/
def ppProcessLine (s : PPState) (line : List Char) : Option PPState :=
  let t := pyStrip line
  match process_tool_change s.tp t with
  | none => none
  | some tp1 =>
      match process_z_move tp1 t with
      | none => none
      | some tp2 => some { s with tp := tp2, lines := s.lines ++ [t] }

/-- `PrimeProcessor.process_lines`. -/
def ppProcessLines (s : PPState) (lines : List (List Char)) : Option PPState :=
  match lines with
  | [] => some s
  | l :: rest =>
      match ppProcessLine s l with
      | none => none
      | some s1 => ppProcessLines s1 rest

/-- `PrimeProcessor.get_lines`: with `pre_ramp`, a warm-up wipe built by a
`PrimeRetraceProcessor` with no idle map and no height override is wrapped
in a relative `Z-0.2`/`Z0.2` bracket between the preamble and the collected
lines. -/
def ppGetLines (s : PPState) : Option (List (List Char)) :=
  if s.pre_ramp then
    match prRun none s.feed_override s.active_tool none s.lines with
    | none => none
    | some warm =>
        some (s.pre_lines ++
          [String.data "G91", String.data "G0 Z-0.2", String.data "G90"] ++
          warm ++
          [String.data "G91", String.data "G0 Z0.2", String.data "G90"] ++
          s.lines)
  else some (s.pre_lines ++ s.lines)

/- Whole-stream block transformation (`modify_blocks`). -/

/-- Python `in` over a list of numeric values. -/
def pyMemB (x : PyVal) (l : List PyVal) : Bool :=
  l.any (pyEqB x)

/-- One-sided set inclusion over numeric values. -/
def pySubB (a b : List PyVal) : Bool :=
  a.all fun x => pyMemB x b

/-- Python `set(a) == set(b)` over numeric values. -/
def pySetEq (a b : List PyVal) : Bool :=
  pySubB a b && pySubB b a

/-- The `pre_ramp` condition of the `S_PRIME_BLOCK` branch, with Python's
left-to-right evaluation and short-circuiting of the crashing lookups:
`not (last_block.finish_target_temps[t] == printing_temps[t] and
last_block.finish_reached_target[t])`. -/
def preRampCalc (last_block : Block) (printing_temps : PyDict PyVal)
    (tool : PyVal) : Option Bool :=
  match pyDGet last_block.finish_target_temps tool with
  | none => none
  | some ft =>
      match pyDGet printing_temps tool with
      | none => none
      | some pt =>
          if pyEqB ft pt then
            match pyDGet last_block.finish_reached_target tool with
            | none => none
            | some r => some (!r)
          else some true

/-- Loop state of `modify_blocks`: the produced blocks, the cached last
prime block, the previous block, the tools of part blocks seen so far, and
the input blocks already traversed as they read after the call (the strip
pass rewrites input blocks in place). -/
structure MBState where
  output_blocks : List Block
  last_prime_block : Block
  last_block : Block
  seen_tools : List PyVal
  inAfter : List Block
deriving DecidableEq, Repr

/-- Initial loop state: both cached blocks start as `Block([])`. -/
def mbInit : MBState := ⟨[], blockDefault, blockDefault, [], []⟩

/-- The branch dispatch of one `modify_blocks` iteration, applied to the
block as it reads after the optional strip pass. -/
def mbDispatch (feedrate_override : PyVal)
    (idle_temps printing_temps : PyDict PyVal)
    (st : MBState) (b1 : Block) : Option MBState :=
  if b1.state = S_PRIME_BLOCK then
    match preRampCalc st.last_block printing_temps b1.active_tool with
    | none => none
    | some pre_ramp =>
        match ppInit b1.active_tool pre_ramp printing_temps
            feedrate_override with
        | none => none
        | some pp0 =>
            match ppProcessLines pp0 b1.lines with
            | none => none
            | some pp1 =>
                match ppGetLines pp1 with
                | none => none
                | some pls =>
                    match add_temperatures
                        { copy_empty_lines b1 with lines := pls } true
                        idle_temps printing_temps
                        st.last_block.finish_target_temps
                        st.last_block.finish_reached_target with
                    | none => none
                    | some nb =>
                        some { st with
                               output_blocks := st.output_blocks ++ [nb],
                               last_prime_block := b1,
                               last_block := nb,
                               inAfter := st.inAfter ++ [b1] }
  else if b1.state = S_PART then
    match add_temperatures b1 false idle_temps printing_temps
        st.last_block.finish_target_temps
        st.last_block.finish_reached_target with
    | none => none
    | some nb =>
        some { st with
               output_blocks := st.output_blocks ++ [nb],
               last_block := nb,
               seen_tools := st.seen_tools ++ [nb.active_tool],
               inAfter := st.inAfter ++ [b1] }
  else if b1.state = S_END_EXTRUDER then
    match prRun (some idle_temps) feedrate_override
        st.last_prime_block.active_tool
        (some st.last_prime_block.finish_z)
        st.last_prime_block.lines with
    | none => none
    | some wls =>
        some { st with
               output_blocks := st.output_blocks ++
                 [{ copy_empty_lines st.last_prime_block with
                    state := S_PRIME_WIPE_BLOCK,
                    active_tool := b1.active_tool,
                    lines := wls }, b1],
               last_block := b1,
               inAfter := st.inAfter ++ [b1] }
  else
    some { st with
           output_blocks := st.output_blocks ++ [b1],
           last_block := b1,
           inAfter := st.inAfter ++ [b1] }

/-- One iteration of the `modify_blocks` loop: `S_INIT` blocks pass
through; otherwise, once every idle-map tool has appeared in a part block,
the temperature lines are stripped from the input block in place, and the
(possibly stripped) block is dispatched by state. -/
def mbStep (feedrate_override : PyVal) (idle_temps printing_temps : PyDict PyVal)
    (st : MBState) (block : Block) : Option MBState :=
  if block.state = S_INIT then
    some { st with
           output_blocks := st.output_blocks ++ [block],
           last_block := block,
           inAfter := st.inAfter ++ [block] }
  else
    match
      (if pySetEq st.seen_tools (idle_temps.map Prod.fst) then
        match removeMatchingLines block.lines with
        | none => none
        | some nl => some { block with lines := nl }
      else some block) with
    | none => none
    | some b1 => mbDispatch feedrate_override idle_temps printing_temps st b1

/-- The `modify_blocks` loop over the input block list. -/
def mbLoop (feedrate_override : PyVal) (idle_temps printing_temps : PyDict PyVal)
    (st : MBState) (blocks : List Block) : Option MBState :=
  match blocks with
  | [] => some st
  | b :: rest =>
      match mbStep feedrate_override idle_temps printing_temps st b with
      | none => none
      | some st1 => mbLoop feedrate_override idle_temps printing_temps st1 rest

/-- The terminal shutdown block appended by `modify_blocks`: one
`M104 T%d S0` per idle-map key, in dict order. -/
def mbEndBlock (idle_temps : PyDict PyVal) : Block :=
  { blockDefault with
    state := S_END,
    lines := idle_temps.map fun kv => tempCommandLine false kv.1 (PyVal.vint 0) }

/-- `modify_blocks(blocks, feedrate_override, idle_temps, printing_temps)`:
returns the produced block list together with the input block list as it
reads after the call (reflecting the in-place strip rewrites). -/
def modifyBlocks (blocks : List Block) (feedrate_override : PyVal)
    (idle_temps printing_temps : PyDict PyVal) :
    Option (List Block × List Block) :=
  match mbLoop feedrate_override idle_temps printing_temps mbInit blocks with
  | none => none
  | some st =>
      some (st.output_blocks ++ [mbEndBlock idle_temps], st.inAfter)

/-- An extruder-end block arriving with no prime block ever captured. -/
def c5EndBlock : Block := { blockDefault with state := S_END_EXTRUDER }

/-- C5: `modify_blocks` reaching an `S_END_EXTRUDER` block when no
`S_PRIME_BLOCK` has been captured does not fail: the source has no
assertion (it is commented out in the older script), so the run silently
succeeds, synthesizing the wipe from the default empty `Block([])` cache
(yielding just the blocking idle-wait line) and continuing to the shutdown
block. -/
theorem c5_missing_prime_assert :
    modifyBlocks [c5EndBlock] (PyVal.vint 400)
        [(PyVal.vint 0, PyVal.vint 100)] [(PyVal.vint 0, PyVal.vint 220)] =
      some ([{ blockDefault with
               state := S_PRIME_WIPE_BLOCK,
               lines := [String.data "M109 T0 S100"] },
             c5EndBlock,
             { blockDefault with
               state := S_END,
               lines := [String.data "M104 T0 S0"] }],
            [c5EndBlock]) := by
  decide

/-- How an input block may read after `modify_blocks` returns: unchanged,
or stripped in place by `remove_matching_ops('M10[49]')`. -/
def mbInPlace (b b' : Block) : Prop :=
  b' = b ∨ ∃ nl, removeMatchingLines b.lines = some nl ∧ b' = { b with lines := nl }

theorem mbDispatch_inAfter (f : PyVal) (idle printing : PyDict PyVal)
    (st : MBState) (b1 : Block) (st' : MBState)
    (h : mbDispatch f idle printing st b1 = some st') :
    st'.inAfter = st.inAfter ++ [b1] := by
  unfold mbDispatch at h
  by_cases h1 : b1.state = S_PRIME_BLOCK
  · rw [if_pos h1] at h
    split at h
    · exact absurd h (by simp)
    · split at h
      · exact absurd h (by simp)
      · split at h
        · exact absurd h (by simp)
        · split at h
          · exact absurd h (by simp)
          · split at h
            · exact absurd h (by simp)
            · rw [← Option.some.inj h]
  · rw [if_neg h1] at h
    by_cases h2 : b1.state = S_PART
    · rw [if_pos h2] at h
      split at h
      · exact absurd h (by simp)
      · rw [← Option.some.inj h]
    · rw [if_neg h2] at h
      by_cases h3 : b1.state = S_END_EXTRUDER
      · rw [if_pos h3] at h
        split at h
        · exact absurd h (by simp)
        · rw [← Option.some.inj h]
      · rw [if_neg h3] at h
        rw [← Option.some.inj h]

theorem mbStep_inAfter (f : PyVal) (idle printing : PyDict PyVal)
    (st : MBState) (b : Block) (st' : MBState)
    (h : mbStep f idle printing st b = some st') :
    ∃ b', st'.inAfter = st.inAfter ++ [b'] ∧ mbInPlace b b' := by
  unfold mbStep at h
  by_cases h0 : b.state = S_INIT
  · rw [if_pos h0] at h
    refine ⟨b, ?_, Or.inl rfl⟩
    rw [← Option.some.inj h]
  · rw [if_neg h0] at h
    by_cases hset : pySetEq st.seen_tools (idle.map Prod.fst) = true
    · rw [if_pos hset] at h
      cases hrm : removeMatchingLines b.lines with
      | none =>
        rw [hrm] at h
        exact absurd h (by simp)
      | some nl =>
        rw [hrm] at h
        refine ⟨{ b with lines := nl }, ?_, Or.inr ⟨nl, hrm, rfl⟩⟩
        exact mbDispatch_inAfter f idle printing st { b with lines := nl } st' h
    · rw [if_neg hset] at h
      refine ⟨b, ?_, Or.inl rfl⟩
      exact mbDispatch_inAfter f idle printing st b st' h

theorem mbLoop_inAfter (f : PyVal) (idle printing : PyDict PyVal)
    (blocks : List Block) (st st' : MBState)
    (h : mbLoop f idle printing st blocks = some st') :
    ∃ suf, st'.inAfter = st.inAfter ++ suf ∧ List.Forall₂ mbInPlace blocks suf := by
  induction blocks generalizing st with
  | nil =>
    refine ⟨[], ?_, List.Forall₂.nil⟩
    rw [← Option.some.inj h, List.append_nil]
  | cons b rest ih =>
    have h1 : (match mbStep f idle printing st b with
        | none => none
        | some st1 => mbLoop f idle printing st1 rest) = some st' := h
    cases hs : mbStep f idle printing st b with
    | none =>
      rw [hs] at h1
      exact absurd h1 (by simp)
    | some st1 =>
      rw [hs] at h1
      obtain ⟨suf, hsuf, hfa⟩ := ih st1 h1
      obtain ⟨b', hb', hip⟩ := mbStep_inAfter f idle printing st b st1 hs
      refine ⟨b' :: suf, ?_, List.Forall₂.cons hip hfa⟩
      rw [hsuf, hb', List.append_assoc]
      rfl

/-- A committed block carrying a strippable temperature line. -/
def c6CexBlock : Block :=
  { blockDefault with state := S_POST_INIT, lines := [String.data "M104 S200"] }

/-- C6 counterexample: once every idle-map tool has been seen (vacuously so
with an empty idle map), `modify_blocks` strips `M10[49]` lines from the
input block itself, so after the call the input block's line list has
changed. -/
theorem c6_no_input_mutation_counterexample :
    (modifyBlocks [c6CexBlock] (PyVal.vint 400) [] []).map Prod.snd =
        some [{ c6CexBlock with lines := [] }] ∧
      ({ c6CexBlock with lines := [] } : Block) ≠ c6CexBlock := by
  refine ⟨by decide, by decide⟩

/-- C6 (amended): on every successful `modify_blocks` call, each block of
the input committed sequence reads, after the call, either exactly as it
did before or as its original content with the temperature lines stripped
in place by `remove_matching_ops('M10[49]')` (all other attributes
unchanged); every other emitted block is produced by copy-and-replace. -/
theorem c6_no_input_mutation_amended (blocks : List Block) (f : PyVal)
    (idle printing : PyDict PyVal) (out inAfter : List Block)
    (h : modifyBlocks blocks f idle printing = some (out, inAfter)) :
    List.Forall₂ mbInPlace blocks inAfter := by
  have h1 : (match mbLoop f idle printing mbInit blocks with
      | none => none
      | some st =>
          some (st.output_blocks ++ [mbEndBlock idle], st.inAfter)) =
      some (out, inAfter) := h
  cases hL : mbLoop f idle printing mbInit blocks with
  | none =>
    rw [hL] at h1
    exact absurd h1 (by simp)
  | some st =>
    rw [hL] at h1
    have h2 := Option.some.inj h1
    obtain ⟨suf, hsuf, hfa⟩ := mbLoop_inAfter f idle printing blocks mbInit st hL
    have h3 : inAfter = st.inAfter := (congrArg Prod.snd h2).symm
    rw [h3, hsuf]
    exact hfa

theorem c6_no_input_mutation_amended_witness :
    List.Forall₂ mbInPlace [blockDefault] [blockDefault] :=
  c6_no_input_mutation_amended [blockDefault] (PyVal.vint 400) [] []
    [blockDefault, { blockDefault with state := S_END, lines := [] }]
    [blockDefault] (by decide)
